import Mathlib

/-!
Verification of the chat client's core pipeline: the stream ingestion loop of
`handleSend` in `[id].tsx`, the conversation store of `ChatContext`
(`loadConversations`, `persistNow`, `createConversation`, `deleteConversation`,
`addMessage`, `updateLastMessage`, `updateConversationTitle`,
`generateMessageId`), and the credential logic of `AuthContext`
(`login`, `signup`).  Text is modelled as `List Char`; JavaScript's `JSON`
is modelled by the `Json` type with an executable parser and printer.
-/

/-! ### Character classes and basic text helpers -/

def isWsChar (c : Char) : Bool :=
  c = ' ' || c = '\t' || c = '\n' || c = '\r'

def isDigitChar (c : Char) : Bool :=
  decide (48 ≤ c.toNat ∧ c.toNat ≤ 57)

def skipWs : List Char → List Char
  | [] => []
  | c :: r => if isWsChar c then skipWs r else c :: r

/-- `buffer.split('\n')`: split a character list at every newline; the
separators are dropped and the result always has at least one element. -/
def splitOnNl : List Char → List (List Char)
  | [] => [[]]
  | c :: cs =>
    if c = '\n' then [] :: splitOnNl cs
    else
      match splitOnNl cs with
      | [] => [[c]]
      | l :: ls => (c :: l) :: ls

/-- Decimal digit characters of a natural number, as produced by JavaScript
number-to-string conversion (used in template literals). -/
def natToChars (n : Nat) : List Char :=
  if h : n < 10 then [Char.ofNat (48 + n)]
  else natToChars (n / 10) ++ [Char.ofNat (48 + n % 10)]
decreasing_by exact Nat.div_lt_self (by omega) (by omega)

def digitVal (c : Char) : Nat := c.toNat - 48

def natFromCharsAux (acc : Nat) : List Char → Nat
  | [] => acc
  | c :: r => natFromCharsAux (10 * acc + digitVal c) r

/-- Read back a natural number from a digit string. -/
def natFromChars (l : List Char) : Option Nat :=
  if l ≠ [] ∧ l.all isDigitChar then some (natFromCharsAux 0 l) else none

/-! ### A model of JavaScript `JSON` values -/

inductive Json where
  | null : Json
  | bool : Bool → Json
  /-- A number, kept as its raw lexeme. -/
  | num : List Char → Json
  | str : List Char → Json
  | arr : List Json → Json
  | obj : List (List Char × Json) → Json

/-- Property access `o[k]` on a parsed value: defined (and `some`) only for
objects having the key; JavaScript keeps the last duplicate key. -/
def Json.getField : Json → List Char → Option Json
  | .obj fields, k =>
    (fields.filter (fun f => f.1 = k)).getLast? |>.map (·.2)
  | _, _ => none

/-- Is a raw number lexeme zero?  True exactly when every digit of the
mantissa is `0`. -/
def numLexemeIsZero (raw : List Char) : Bool :=
  (raw.takeWhile (fun c => c ≠ 'e' ∧ c ≠ 'E')).all
    (fun c => !isDigitChar c || c = '0')

/-- JavaScript truthiness of a defined value. -/
def Json.truthy : Json → Bool
  | .null => false
  | .bool b => b
  | .num raw => !numLexemeIsZero raw
  | .str s => !s.isEmpty
  | .arr _ => true
  | .obj _ => true

/-- JavaScript truthiness of a possibly-undefined value (`if (o.k)`). -/
def truthyOpt : Option Json → Bool
  | none => false
  | some v => v.truthy

mutual

/-- JavaScript string coercion, as used by `fullContent += parsed.content`
and `new Error(parsed.error)`. -/
def jsToChars : Json → List Char
  | .null => ('n' :: ['u', 'l', 'l'])
  | .bool true => ('t' :: ['r', 'u', 'e'])
  | .bool false => ('f' :: ['a', 'l', 's', 'e'])
  | .num raw => raw
  | .str s => s
  | .arr xs => jsToCharsList xs
  | .obj _ => ("[object Object]".toList)

def jsToCharsList : List Json → List Char
  | [] => []
  | [x] => jsToChars x
  | x :: xs => jsToChars x ++ ',' :: jsToCharsList xs

end

/-! ### `JSON.parse`: an executable recursive-descent parser -/

def hexVal (c : Char) : Option Nat :=
  if 48 ≤ c.toNat ∧ c.toNat ≤ 57 then some (c.toNat - 48)
  else if 97 ≤ c.toNat ∧ c.toNat ≤ 102 then some (c.toNat - 87)
  else if 65 ≤ c.toNat ∧ c.toNat ≤ 70 then some (c.toNat - 55)
  else none

def escCharVal (c : Char) : Option Char :=
  if c = '"' then some '"'
  else if c = '\\' then some '\\'
  else if c = '/' then some '/'
  else if c = 'b' then some '\x08'
  else if c = 'f' then some '\x0C'
  else if c = 'n' then some '\n'
  else if c = 'r' then some '\r'
  else if c = 't' then some '\t'
  else none

/-- Parse the body of a JSON string (after the opening quote), returning the
decoded content and the input after the closing quote. -/
def parseStringBody : List Char → Option (List Char × List Char)
  | [] => none
  | c :: r =>
    if c = '"' then some ([], r)
    else if c = '\\' then
      match r with
      | 'u' :: a :: b :: c2 :: d :: r2 =>
        match hexVal a, hexVal b, hexVal c2, hexVal d with
        | some x, some y, some z, some w =>
          (parseStringBody r2).map
            (fun p => (Char.ofNat (((x * 16 + y) * 16 + z) * 16 + w) :: p.1, p.2))
        | _, _, _, _ => none
      | e :: r2 =>
        match escCharVal e with
        | some ch => (parseStringBody r2).map (fun p => (ch :: p.1, p.2))
        | none => none
      | [] => none
    else if c.toNat < 32 then none
    else (parseStringBody r).map (fun p => (c :: p.1, p.2))

def takeDigits : List Char → List Char × List Char
  | [] => ([], [])
  | c :: r =>
    if isDigitChar c then
      let p := takeDigits r
      (c :: p.1, p.2)
    else ([], c :: r)

/-- Parse the integer/fraction/exponent tail of a JSON number after the
optional sign; returns the remaining lexeme chars and the rest. -/
def parseNumTail (s : List Char) : Option (List Char × List Char) :=
  match takeDigits s with
  | ([], _) => none
  | (ds, r1) =>
    if ds.head? = some '0' ∧ ds.length ≠ 1 then none
    else
      let fr :=
        match r1 with
        | c :: rr =>
          if c = '.' then
            match takeDigits rr with
            | ([], _) => (([] : List Char), r1)
            | (fs, r') => ('.' :: fs, r')
          else ([], r1)
        | [] => ([], r1)
      if fr.1 = [] ∧ (r1.head? = some '.') then none
      else
        match fr.2 with
        | e :: rr =>
          if e = 'e' ∨ e = 'E' then
            let sg :=
              match rr with
              | c :: t => if c = '+' ∨ c = '-' then ([c], t) else ([], rr)
              | [] => ([], rr)
            match takeDigits sg.2 with
            | ([], _) => none
            | (es, r3) => some (ds ++ fr.1 ++ e :: sg.1 ++ es, r3)
          else some (ds ++ fr.1, fr.2)
        | [] => some (ds ++ fr.1, fr.2)

def parseNumber (s : List Char) : Option (Json × List Char) :=
  match s with
  | [] => none
  | c :: r =>
    if c = '-' then (parseNumTail r).map (fun p => (Json.num ('-' :: p.1), p.2))
    else (parseNumTail (c :: r)).map (fun p => (Json.num p.1, p.2))

mutual

def parseValue : Nat → List Char → Option (Json × List Char)
  | 0, _ => none
  | Nat.succ f, s =>
    match skipWs s with
    | [] => none
    | c :: r =>
      if c = '"' then (parseStringBody r).map (fun p => (Json.str p.1, p.2))
      else if c = '{' then
        match skipWs r with
        | '}' :: r2 => some (Json.obj [], r2)
        | _ => (parseMembers f r).map (fun p => (Json.obj p.1, p.2))
      else if c = '[' then
        match skipWs r with
        | ']' :: r2 => some (Json.arr [], r2)
        | _ => (parseElems f r).map (fun p => (Json.arr p.1, p.2))
      else if c = 't' then
        match r with
        | 'r' :: 'u' :: 'e' :: r2 => some (Json.bool true, r2)
        | _ => none
      else if c = 'f' then
        match r with
        | 'a' :: 'l' :: 's' :: 'e' :: r2 => some (Json.bool false, r2)
        | _ => none
      else if c = 'n' then
        match r with
        | 'u' :: 'l' :: 'l' :: r2 => some (Json.null, r2)
        | _ => none
      else parseNumber (c :: r)

/-- Members of an object, consuming up to and including the closing brace. -/
def parseMembers : Nat → List Char → Option (List (List Char × Json) × List Char)
  | 0, _ => none
  | Nat.succ f, s =>
    match skipWs s with
    | '"' :: r =>
      match parseStringBody r with
      | none => none
      | some (k, s1) =>
        match skipWs s1 with
        | ':' :: s2 =>
          match parseValue f s2 with
          | none => none
          | some (v, s3) =>
            match skipWs s3 with
            | ',' :: s4 =>
              (parseMembers f s4).map (fun p => ((k, v) :: p.1, p.2))
            | '}' :: s4 => some ([(k, v)], s4)
            | _ => none
        | _ => none
    | _ => none

/-- Elements of an array, consuming up to and including the closing bracket. -/
def parseElems : Nat → List Char → Option (List Json × List Char)
  | 0, _ => none
  | Nat.succ f, s =>
    match parseValue f s with
    | none => none
    | some (v, s1) =>
      match skipWs s1 with
      | ',' :: s2 => (parseElems f s2).map (fun p => (v :: p.1, p.2))
      | ']' :: s2 => some ([v], s2)
      | _ => none

end

/-- `JSON.parse`: `none` models a thrown `SyntaxError`. -/
def jsonParse (s : List Char) : Option Json :=
  match parseValue (s.length + 1) s with
  | some (v, r) => if skipWs r = [] then some v else none
  | none => none

/-! ### `JSON.stringify` for the values the store writes -/

def hexDigitChar (n : Nat) : Char :=
  if n < 10 then Char.ofNat (48 + n) else Char.ofNat (87 + n)

def escapeChar (c : Char) : List Char :=
  if c = '"' then ['\\', '"']
  else if c = '\\' then ['\\', '\\']
  else if c = '\x08' then ['\\', 'b']
  else if c = '\x0C' then ['\\', 'f']
  else if c = '\n' then ['\\', 'n']
  else if c = '\r' then ['\\', 'r']
  else if c = '\t' then ['\\', 't']
  else if c.toNat < 32 then
    ['\\', 'u', '0', '0', hexDigitChar (c.toNat / 16), hexDigitChar (c.toNat % 16)]
  else [c]

def printStringBody (s : List Char) : List Char :=
  (s.map escapeChar).flatten

def printString (s : List Char) : List Char :=
  '"' :: printStringBody s ++ ['"']

mutual

def stringifyJson : Json → List Char
  | .null => ('n' :: ['u', 'l', 'l'])
  | .bool true => ('t' :: ['r', 'u', 'e'])
  | .bool false => ('f' :: ['a', 'l', 's', 'e'])
  | .num raw => raw
  | .str s => printString s
  | .arr xs => '[' :: stringifyElems xs ++ [']']
  | .obj ms => '{' :: stringifyMembers ms ++ ['}']

/-- Comma-joined array elements. -/
def stringifyElems : List Json → List Char
  | [] => []
  | [x] => stringifyJson x
  | x :: xs => stringifyJson x ++ ',' :: stringifyElems xs

/-- Comma-joined `"key":value` members. -/
def stringifyMembers : List (List Char × Json) → List Char
  | [] => []
  | [m] => printString m.1 ++ ':' :: stringifyJson m.2
  | m :: ms => printString m.1 ++ ':' :: stringifyJson m.2 ++ ',' :: stringifyMembers ms

end

/-! ### Stream ingestion engine (`handleSend` in `[id].tsx`, lines 114-195)

The loop body keeps `fullContent` (the accumulated assistant text),
`assistantAdded` (whether the in-progress assistant message exists yet) and
the live message list.  We record as `observations` the successive values of
`content` written to the in-progress assistant message (the first delta
creates the message; later ones overwrite its `content` in place). -/

structure IngestState where
  fullContent : List Char
  assistantAdded : Bool
  observations : List (List Char)
deriving DecidableEq, Repr

/-- A thrown (non-`SyntaxError`) exception: the `catch` clause of
`handleSend` can read the loop variables as they were at the throw, so the
error carries the `IngestState` at that moment together with the message. -/
structure StreamErr where
  atThrow : IngestState
  message : List Char
deriving DecidableEq, Repr

def dataMarker : List Char := ('d' :: ['a', 't', 'a', ':', ' '])

def doneSentinel : List Char := ('[' :: ['D', 'O', 'N', 'E', ']'])

/-- One complete line of the response body (`for (const line of lines)`). -/
def processLine (st : IngestState) (line : List Char) : Except StreamErr IngestState :=
  if line.take 6 ≠ dataMarker then .ok st
  else
    let data := line.drop 6
    if data = doneSentinel then .ok st
    else
      match jsonParse data with
      | none => .ok st
      | some parsed =>
        let st1 :=
          if truthyOpt (parsed.getField ('c' :: ['o', 'n', 't', 'e', 'n', 't']))
          then
            let full := st.fullContent ++
              jsToChars ((parsed.getField ('c' :: ['o', 'n', 't', 'e', 'n', 't'])).getD .null)
            { fullContent := full, assistantAdded := true
              observations := st.observations ++ [full] }
          else st
        if truthyOpt (parsed.getField ('e' :: ['r', 'r', 'o', 'r'])) then
          .error ⟨st1, jsToChars ((parsed.getField ('e' :: ['r', 'r', 'o', 'r'])).getD .null)⟩
        else .ok st1

def processLines (st : IngestState) : List (List Char) → Except StreamErr IngestState
  | [] => .ok st
  | l :: ls =>
    match processLine st l with
    | .ok st' => processLines st' ls
    | .error e => .error e

/-- The carry-over buffer together with the ingest state. -/
structure BufState where
  buffer : List Char
  st : IngestState
deriving DecidableEq, Repr

/-- One chunk: `buffer += decoder.decode(value); const lines =
buffer.split('\n'); buffer = lines.pop() || ''; for (const line of lines) …`. -/
def processChunk (bs : BufState) (chunk : List Char) : Except StreamErr BufState :=
  let parts := splitOnNl (bs.buffer ++ chunk)
  let newBuffer := parts.getLastD []
  match processLines bs.st parts.dropLast with
  | .ok st' => .ok ⟨newBuffer, st'⟩
  | .error e => .error e

def runStreamFrom (bs : BufState) : List (List Char) → Except StreamErr BufState
  | [] => .ok bs
  | ch :: rest =>
    match processChunk bs ch with
    | .ok bs' => runStreamFrom bs' rest
    | .error e => .error e

def initialBufState : BufState := ⟨[], ⟨[], false, []⟩⟩

/-- The whole read loop of `handleSend` over the decoded chunks of the
response body. -/
def runStream (chunks : List (List Char)) : Except StreamErr BufState :=
  runStreamFrom initialBufState chunks

/-- The character-at-a-time reference machine used to prove that the
buffered framing is insensitive to how the text is split into chunks. -/
def stepChar (bs : BufState) (c : Char) : Except StreamErr BufState :=
  if c = '\n' then
    match processLine bs.st bs.buffer with
    | .ok st' => .ok ⟨[], st'⟩
    | .error e => .error e
  else .ok ⟨bs.buffer ++ [c], bs.st⟩

def runChars (bs : BufState) : List Char → Except StreamErr BufState
  | [] => .ok bs
  | c :: cs =>
    match stepChar bs c with
    | .ok bs' => runChars bs' cs
    | .error e => .error e

def fallbackContent : List Char :=
  ("Sorry, something went wrong. Please try again.".toList)

/-- The outcome of one `handleSend` call, as far as the assistant reply is
concerned. -/
structure SendOutcome where
  /-- Contents of the assistant messages passed to `addMessage`, in order
  (the user message appended before the request is not included). -/
  persisted : List (List Char)
  /-- Whether the fallback message was appended to the live message list. -/
  fallbackShownLive : Bool
  /-- Successive contents of the in-progress assistant message. -/
  observations : List (List Char)
deriving DecidableEq, Repr

/-- `handleSend` after the user message: `respOk` is `response.ok`;
`readFails` means a read of the body throws after all chunks (a transport
error).  On any throw control reaches the `catch` block, which appends the
fallback to the live list only when `assistantAdded` is still false but
always persists it via `addMessage`. -/
def runHandleSend (respOk : Bool) (chunks : List (List Char)) (readFails : Bool) :
    SendOutcome :=
  if respOk = false then
    { persisted := [fallbackContent], fallbackShownLive := true, observations := [] }
  else
    match runStream chunks with
    | .error e =>
      { persisted := [fallbackContent]
        fallbackShownLive := !e.atThrow.assistantAdded
        observations := e.atThrow.observations }
    | .ok bs =>
      if readFails then
        { persisted := [fallbackContent]
          fallbackShownLive := !bs.st.assistantAdded
          observations := bs.st.observations }
      else
        { persisted := if bs.st.fullContent ≠ [] then [bs.st.fullContent] else []
          fallbackShownLive := false
          observations := bs.st.observations }

/-! ### Chunk-splitting invariance of the framing loop -/

def noNl (l : List Char) : Prop := ∀ c ∈ l, c ≠ '\n'

instance (l : List Char) : Decidable (noNl l) := List.decidableBAll _ l

theorem splitOnNl_of_noNl {l : List Char} (h : noNl l) : splitOnNl l = [l] := by
  induction l with
  | nil => rfl
  | cons c cs ih =>
    have hc : c ≠ '\n' := h c (by simp)
    have ih' := ih (fun x hx => h x (by simp [hx]))
    simp only [splitOnNl, if_neg hc, ih']

theorem splitOnNl_append_nl {pre rest : List Char} (h : noNl pre) :
    splitOnNl (pre ++ '\n' :: rest) = pre :: splitOnNl rest := by
  induction pre with
  | nil => simp [splitOnNl]
  | cons c cs ih =>
    have hc : c ≠ '\n' := h c (by simp)
    have ih' := ih (fun x hx => h x (by simp [hx]))
    simp only [List.cons_append, splitOnNl, if_neg hc, List.append_eq, ih']

theorem splitOnNl_ne_nil (s : List Char) : splitOnNl s ≠ [] := by
  induction s with
  | nil => simp [splitOnNl]
  | cons c cs ih =>
    by_cases hc : c = '\n'
    · simp [splitOnNl, hc]
    · simp only [splitOnNl, if_neg hc]
      cases h : splitOnNl cs with
      | nil => simp
      | cons l ls => simp

theorem getLastD_cons' {α : Type} (a d : α) (t : List α) :
    (a :: t).getLastD d = t.getLastD a := by
  cases t <;> simp [List.getLastD]

theorem getLastD_of_ne_nil {α : Type} {l : List α} (h : l ≠ []) (d d' : α) :
    l.getLastD d = l.getLastD d' := by
  cases l with
  | nil => exact absurd rfl h
  | cons a t => rw [getLastD_cons', getLastD_cons']

theorem processChunk_eq_runChars (chunk : List Char) (bs : BufState)
    (h : noNl bs.buffer) : processChunk bs chunk = runChars bs chunk := by
  induction chunk generalizing bs with
  | nil =>
    obtain ⟨buf, st⟩ := bs
    simp only [processChunk, List.append_nil, splitOnNl_of_noNl h, runChars]
    rfl
  | cons c cs ih =>
    obtain ⟨buf, st⟩ := bs
    by_cases hc : c = '\n'
    · subst hc
      have hsplit : splitOnNl (buf ++ '\n' :: cs) = buf :: splitOnNl cs :=
        splitOnNl_append_nl h
      have hne := splitOnNl_ne_nil cs
      obtain ⟨p, ps, hps⟩ : ∃ p ps, splitOnNl cs = p :: ps := by
        cases hq : splitOnNl cs with
        | nil => exact absurd hq hne
        | cons p ps => exact ⟨p, ps, rfl⟩
      have hstep : stepChar ⟨buf, st⟩ '\n' =
          (match processLine st buf with
            | .ok st' => .ok ⟨[], st'⟩
            | .error e => .error e) := by
        simp [stepChar]
      simp only [runChars, hstep]
      cases hpl : processLine st buf with
      | error e =>
        simp only [processChunk, hsplit, hps, List.dropLast_cons₂,
          processLines, hpl]
      | ok st' =>
        have hrec := ih ⟨[], st'⟩ (by intro x hx; simp at hx)
        simp only [processChunk, List.nil_append, hps, getLastD_cons'] at hrec
        simp only [processChunk, hsplit, hps, List.dropLast_cons₂,
          getLastD_cons', processLines, hpl]
        exact hrec
    · have hbc : noNl (buf ++ [c]) := by
        intro x hx
        rcases List.mem_append.mp hx with hx | hx
        · exact h x hx
        · simp at hx; subst hx; exact hc
      have := ih ⟨buf ++ [c], st⟩ hbc
      simp only [runChars, stepChar, if_neg hc]
      rw [← this]
      simp only [processChunk, List.append_assoc, List.singleton_append]

theorem runChars_append (a b : List Char) (bs : BufState) :
    runChars bs (a ++ b) =
      match runChars bs a with
      | .ok bs' => runChars bs' b
      | .error e => .error e := by
  induction a generalizing bs with
  | nil => simp [runChars]
  | cons c cs ih =>
    simp only [List.cons_append, runChars]
    cases stepChar bs c with
    | ok bs' => exact ih bs'
    | error e => rfl

theorem runChars_noNl_buffer (s : List Char) (bs bs' : BufState)
    (h : noNl bs.buffer) (hr : runChars bs s = .ok bs') : noNl bs'.buffer := by
  induction s generalizing bs with
  | nil =>
    simp only [runChars] at hr
    cases hr
    exact h
  | cons c cs ih =>
    simp only [runChars] at hr
    by_cases hc : c = '\n'
    · subst hc
      simp only [stepChar, if_pos rfl] at hr
      cases hpl : processLine bs.st bs.buffer with
      | ok st' =>
        rw [hpl] at hr
        exact ih ⟨[], st'⟩ (by intro x hx; simp at hx) hr
      | error e => rw [hpl] at hr; cases hr
    · simp only [stepChar, if_neg hc] at hr
      refine ih ⟨bs.buffer ++ [c], bs.st⟩ ?_ hr
      intro x hx
      rcases List.mem_append.mp hx with hx | hx
      · exact h x hx
      · simp at hx; subst hx; exact hc

theorem runStreamFrom_eq_runChars (chunks : List (List Char)) (bs : BufState)
    (h : noNl bs.buffer) : runStreamFrom bs chunks = runChars bs chunks.flatten := by
  induction chunks generalizing bs with
  | nil => simp [runStreamFrom, runChars]
  | cons ch rest ih =>
    simp only [runStreamFrom, List.flatten_cons, runChars_append,
      processChunk_eq_runChars ch bs h]
    cases hr : runChars bs ch with
    | ok bs' => exact ih bs' (runChars_noNl_buffer ch bs bs' h hr)
    | error e => rfl

/-- The framing loop of `handleSend` is insensitive to how the response text
is split into chunks: any chunking behaves like delivering the whole text as
one chunk. -/
theorem runStream_eq_join (chunks : List (List Char)) :
    runStream chunks = runStream [chunks.flatten] := by
  have h0 : noNl initialBufState.buffer := by intro c hc; simp [initialBufState] at hc
  rw [runStream, runStreamFrom_eq_runChars chunks _ h0, runStream]
  simp only [runStreamFrom]
  rw [← processChunk_eq_runChars _ _ h0] at *
  cases hp : processChunk initialBufState chunks.flatten with
  | ok bs' => simp [runStreamFrom]
  | error e => rfl

theorem runStreamFrom_append_single (l : List (List Char)) (p : List Char)
    (bs : BufState) :
    runStreamFrom bs (l ++ [p]) =
      match runStreamFrom bs l with
      | .ok bs' => processChunk bs' p
      | .error e => .error e := by
  induction l generalizing bs with
  | nil =>
    simp only [List.nil_append, runStreamFrom]
    cases processChunk bs p <;> rfl
  | cons ch rest ih =>
    simp only [List.cons_append, runStreamFrom]
    cases processChunk bs ch with
    | ok bs' => exact ih bs'
    | error e => rfl

theorem processChunk_of_noNl {bs : BufState} {p : List Char}
    (h : noNl bs.buffer) (hp : noNl p) :
    processChunk bs p = .ok ⟨bs.buffer ++ p, bs.st⟩ := by
  have hbp : noNl (bs.buffer ++ p) := by
    intro x hx
    rcases List.mem_append.mp hx with hx | hx
    · exact h x hx
    · exact hp x hx
  simp [processChunk, splitOnNl_of_noNl hbp, processLines]

theorem runStream_ok_noNl {chunks : List (List Char)} {bs : BufState}
    (hr : runStream chunks = .ok bs) : noNl bs.buffer := by
  rw [runStream, runStreamFrom_eq_runChars chunks _
    (by intro x hx; simp [initialBufState] at hx)] at hr
  exact runChars_noNl_buffer _ _ _ (by intro x hx; simp [initialBufState] at hx) hr

/-- Appending a final chunk that contains no newline (a trailing partial
line) only extends the carry-over buffer: the ingest state — observations,
accumulated content, `assistantAdded` — is untouched, so the trailing
fragment is never processed. -/
theorem runStream_trailing_partial (chunks : List (List Char)) (p : List Char)
    (hp : noNl p) :
    runStream (chunks ++ [p]) =
      (runStream chunks).map (fun bs => ⟨bs.buffer ++ p, bs.st⟩) := by
  rw [runStream, runStreamFrom_append_single]
  cases hr : runStreamFrom initialBufState chunks with
  | ok bs' =>
    have hnl : noNl bs'.buffer := runStream_ok_noNl hr
    simp [runStream, hr, processChunk_of_noNl hnl hp, Except.map]
  | error e => simp [runStream, hr, Except.map]

/-! ### Data model (`ChatContext`: `Message`, `Conversation`) -/

inductive Role where
  | user : Role
  | assistant : Role
deriving DecidableEq, Repr

structure Message where
  id : List Char
  role : Role
  content : List Char
  timestamp : Nat
  imageBase64 : Option (List Char) := none
deriving DecidableEq, Repr

structure Conversation where
  id : List Char
  title : List Char
  messages : List Message
  createdAt : Nat
  updatedAt : Nat
deriving DecidableEq, Repr

def roleChars : Role → List Char
  | .user => ('u' :: ['s', 'e', 'r'])
  | .assistant => ('a' :: ['s', 's', 'i', 's', 't', 'a', 'n', 't'])

def idKey : List Char := ('i' :: ['d'])
def roleKey : List Char := ('r' :: ['o', 'l', 'e'])
def contentKey : List Char := ('c' :: ['o', 'n', 't', 'e', 'n', 't'])
def timestampKey : List Char := ('t' :: ['i', 'm', 'e', 's', 't', 'a', 'm', 'p'])
def imageKey : List Char := ('i' :: ['m', 'a', 'g', 'e', 'B', 'a', 's', 'e', '6', '4'])
def titleKey : List Char := ('t' :: ['i', 't', 'l', 'e'])
def messagesKey : List Char := ('m' :: ['e', 's', 's', 'a', 'g', 'e', 's'])
def createdAtKey : List Char := ('c' :: ['r', 'e', 'a', 't', 'e', 'd', 'A', 't'])
def updatedAtKey : List Char := ('u' :: ['p', 'd', 'a', 't', 'e', 'd', 'A', 't'])

/-- The JSON value `JSON.stringify` sees for a `Message` (keys in insertion
order; an absent optional `imageBase64` property is omitted). -/
def encodeMsg (m : Message) : Json :=
  .obj ([(idKey, .str m.id), (roleKey, .str (roleChars m.role)),
         (contentKey, .str m.content),
         (timestampKey, .num (natToChars m.timestamp))] ++
    (match m.imageBase64 with
     | none => []
     | some b => [(imageKey, .str b)]))

def encodeConv (c : Conversation) : Json :=
  .obj [(idKey, .str c.id), (titleKey, .str c.title),
        (messagesKey, .arr (c.messages.map encodeMsg)),
        (createdAtKey, .num (natToChars c.createdAt)),
        (updatedAtKey, .num (natToChars c.updatedAt))]

def encodeConvs (l : List Conversation) : Json := .arr (l.map encodeConv)

/-- `JSON.stringify(conversationsRef.current)`. -/
def serializeConversations (l : List Conversation) : List Char :=
  stringifyJson (encodeConvs l)

def asStr : Json → Option (List Char)
  | .str s => some s
  | _ => none

def asNat : Json → Option Nat
  | .num raw => natFromChars raw
  | _ => none

def decodeRole (j : Json) : Option Role :=
  match j with
  | .str s =>
    if s = roleChars .user then some .user
    else if s = roleChars .assistant then some .assistant
    else none
  | _ => none

/-- Reading a `Message` back out of a parsed JSON value (the shape the
TypeScript cast `JSON.parse(stored) as Conversation[]` relies on). -/
def decodeMsg (j : Json) : Option Message := do
  let i ← (j.getField idKey).bind asStr
  let r ← (j.getField roleKey).bind decodeRole
  let c ← (j.getField contentKey).bind asStr
  let t ← (j.getField timestampKey).bind asNat
  let img ←
    match j.getField imageKey with
    | none => some none
    | some v => (asStr v).map some
  pure ⟨i, r, c, t, img⟩

def decodeMsgList : List Json → Option (List Message)
  | [] => some []
  | j :: js => do
    let m ← decodeMsg j
    let ms ← decodeMsgList js
    pure (m :: ms)

def decodeConv (j : Json) : Option Conversation := do
  let i ← (j.getField idKey).bind asStr
  let t ← (j.getField titleKey).bind asStr
  let ms ←
    match j.getField messagesKey with
    | some (.arr xs) => decodeMsgList xs
    | _ => none
  let ca ← (j.getField createdAtKey).bind asNat
  let ua ← (j.getField updatedAtKey).bind asNat
  pure ⟨i, t, ms, ca, ua⟩

def decodeConvList : List Json → Option (List Conversation)
  | [] => some []
  | j :: js => do
    let c ← decodeConv j
    let cs ← decodeConvList js
    pure (c :: cs)

def decodeConvs (j : Json) : Option (List Conversation) :=
  match j with
  | .arr xs => decodeConvList xs
  | _ => none

/-- `JSON.parse(stored)` followed by reading the conversation-list shape. -/
def parseConversations (s : List Char) : Option (List Conversation) :=
  (jsonParse s).bind decodeConvs

/-! ### The conversation store (`ChatProvider`, part_000 lines 348-514) -/

structure StoreState where
  /-- The in-memory list (`conversations` state and `conversationsRef`,
  which the provider keeps identical). -/
  conversations : List Conversation
  /-- `storageKeyRef.current`. -/
  activeKey : Option (List Char)
  /-- Whether a debounced save timer is scheduled (`saveTimerRef.current`). -/
  timerPending : Bool
  /-- The persistent key-value store (`AsyncStorage`). -/
  storage : List Char → Option (List Char)

/-- `scheduleSave`: clear any pending timer and start a new one. -/
def scheduleSave (st : StoreState) : StoreState := { st with timerPending := true }

/-- The debounced timer firing: serialize the current in-memory list under
the current key (nothing if the key is gone). -/
def timerFire (st : StoreState) : StoreState :=
  if st.timerPending then
    match st.activeKey with
    | none => { st with timerPending := false }
    | some k =>
      { st with
          timerPending := false,
          storage := fun k' =>
            if k' = k then some (serializeConversations st.conversations)
            else st.storage k' }
  else st

/-- `persistNow`: return if there is no key, else cancel the timer and write
the current in-memory list immediately. -/
def persistNow (st : StoreState) : StoreState :=
  match st.activeKey with
  | none => st
  | some k =>
    { st with
        timerPending := false,
        storage := fun k' =>
          if k' = k then some (serializeConversations st.conversations)
          else st.storage k' }

def newChatTitle : List Char := ('N' :: ['e', 'w', ' ', 'C', 'h', 'a', 't'])

/-- The conversation object built by `createConversation` (`title || 'New
Chat'`; `id` and `now` stand for `Date.now()` and the random suffix). -/
def newConversation (id : List Char) (title : Option (List Char)) (now : Nat) :
    Conversation :=
  { id := id
    title :=
      match title with
      | some t => if t = [] then newChatTitle else t
      | none => newChatTitle
    messages := []
    createdAt := now
    updatedAt := now }

def createConversation (st : StoreState) (id : List Char)
    (title : Option (List Char)) (now : Nat) : StoreState :=
  scheduleSave { st with conversations := newConversation id title now :: st.conversations }

def deleteConversation (st : StoreState) (id : List Char) : StoreState :=
  scheduleSave { st with conversations := st.conversations.filter (fun c => c.id ≠ id) }

def addMessageList (l : List Conversation) (cid : List Char) (m : Message)
    (now : Nat) : List Conversation :=
  l.map fun c =>
    if c.id = cid then { c with messages := c.messages ++ [m], updatedAt := now }
    else c

def addMessage (st : StoreState) (cid : List Char) (m : Message) (now : Nat) :
    StoreState :=
  scheduleSave { st with conversations := addMessageList st.conversations cid m now }

/-- `msgs[msgs.length - 1] = { ...msgs[msgs.length - 1], content }`. -/
def setLastContent (msgs : List Message) (content : List Char) : List Message :=
  match msgs.getLast? with
  | none => msgs
  | some m => msgs.dropLast ++ [{ m with content := content }]

def updateLastMessageList (l : List Conversation) (cid : List Char)
    (content : List Char) (now : Nat) : List Conversation :=
  l.map fun c =>
    if c.id = cid ∧ c.messages ≠ [] then
      { c with messages := setLastContent c.messages content, updatedAt := now }
    else c

/-- `updateLastMessage` mutates in-memory state only: no `scheduleSave`. -/
def updateLastMessage (st : StoreState) (cid : List Char) (content : List Char)
    (now : Nat) : StoreState :=
  { st with conversations := updateLastMessageList st.conversations cid content now }

def updateConversationTitle (st : StoreState) (cid : List Char)
    (title : List Char) : StoreState :=
  scheduleSave
    { st with conversations :=
        st.conversations.map fun c => if c.id = cid then { c with title := title } else c }

/-- The mutating calls of the claim "for every sequence of
createConversation / deleteConversation / addMessage calls". -/
inductive StoreOp where
  | createOp (id : List Char) (title : Option (List Char)) (now : Nat) : StoreOp
  | deleteOp (id : List Char) : StoreOp
  | addMsgOp (cid : List Char) (m : Message) (now : Nat) : StoreOp

def applyOp (st : StoreState) : StoreOp → StoreState
  | .createOp id title now => createConversation st id title now
  | .deleteOp id => deleteConversation st id
  | .addMsgOp cid m now => addMessage st cid m now

def runOps (st : StoreState) (ops : List StoreOp) : StoreState :=
  ops.foldl applyOp st

/-- The effect of one call on the in-memory list alone. -/
def applyOpConvs (l : List Conversation) : StoreOp → List Conversation
  | .createOp id title now => newConversation id title now :: l
  | .deleteOp id => l.filter (fun c => c.id ≠ id)
  | .addMsgOp cid m now => addMessageList l cid m now

/-! ### Identity switching and `loadConversations` (part_000 lines 359-393)

When `storageKey` changes the provider's effect calls
`loadConversations(key)`, which awaits `AsyncStorage.getItem(key)` and then
unconditionally installs the result with `setConversations` — there is no
check that `key` is still the active one when the read resolves.  We model
the asynchronous reads as a list of pending requests that can resolve in any
order. -/

structure ProviderState where
  conversations : List Conversation
  isLoading : Bool
  /-- Keys of `loadConversations` calls whose `getItem` has not resolved yet,
  oldest first. -/
  pending : List (List Char)

inductive ProviderEvent where
  /-- The `storageKey` memo changed (the user logged in/out or switched);
  the `[storageKey]` effect runs. -/
  | setKey (k : Option (List Char)) : ProviderEvent
  /-- The `i`-th pending `getItem` resolves, reading storage now. -/
  | resolve (i : Nat) : ProviderEvent

def applyProviderEvent (storage : List Char → Option (List Char))
    (st : ProviderState) : ProviderEvent → ProviderState
  | .setKey none => { st with conversations := [], isLoading := false }
  | .setKey (some k) =>
    { st with isLoading := true, pending := st.pending ++ [k] }
  | .resolve i =>
    match st.pending[i]? with
    | none => st
    | some k =>
      let convs :=
        match storage k with
        | some stored => (parseConversations stored).getD []
        | none => []
      { conversations := convs, isLoading := false,
        pending := st.pending.eraseIdx i }

def runProvider (storage : List Char → Option (List Char))
    (st : ProviderState) (events : List ProviderEvent) : ProviderState :=
  events.foldl (applyProviderEvent storage) st

/-! ### `generateMessageId` (part_000 lines 342-346)

`msg-${Date.now()}-${msgCounter}-${Math.random().toString(36).substr(2, 9)}`
with `msgCounter++` before building the string. -/

def generateMessageId (time counter : Nat) (rand : List Char) : List Char :=
  ('m' :: ['s', 'g', '-']) ++ natToChars time ++ '-' :: natToChars counter
    ++ '-' :: rand

/-- A run of calls within one process: the `i`-th call (0-based) sees
`msgCounter = c0 + i + 1` after the increment, and its own time and random
suffix. -/
def generatedIds (c0 : Nat) (calls : List (Nat × List Char)) : List (List Char) :=
  calls.enum.map fun p => generateMessageId p.2.1 (c0 + p.1 + 1) p.2.2

/-! ### Credentials (`AuthContext`: `login`, `signup`) -/

structure AuthUser where
  id : List Char
  username : List Char
deriving DecidableEq, Repr

/-- The record stored per normalized username in the `nexus_users` blob. -/
structure Credential where
  password : List Char
  id : List Char
deriving DecidableEq, Repr

/-- `username.trim()`: strip surrounding whitespace. -/
def trimChars (l : List Char) : List Char :=
  ((l.dropWhile isWsChar).reverse.dropWhile isWsChar).reverse

/-- `toLowerCase()` for the characters involved (ASCII case mapping). -/
def lowerChar (c : Char) : Char :=
  if 65 ≤ c.toNat ∧ c.toNat ≤ 90 then Char.ofNat (c.toNat + 32) else c

/-- `username.trim().toLowerCase()` — the normalization shared by `login`
and `signup`. -/
def normalizeUsername (l : List Char) : List Char :=
  (trimChars l).map lowerChar

/-- The users record: JavaScript object keyed by normalized username. -/
abbrev UsersMap : Type := List (List Char × Credential)

def usersLookup (users : UsersMap) (k : List Char) : Option Credential :=
  (List.filter (fun e => e.1 = k) users).getLast? |>.map (·.2)

/-- `users[k] = v`: overwrite or append. -/
def usersInsert (users : UsersMap) (k : List Char) (v : Credential) : UsersMap :=
  if (usersLookup users k).isSome then
    users.map fun e => if e.1 = k then (k, v) else e
  else users ++ [(k, v)]

structure AuthState where
  users : UsersMap
  currentUser : Option AuthUser

inductive AuthOutcome where
  | success : AuthOutcome
  | failure (error : List Char) : AuthOutcome
deriving DecidableEq, Repr

def loginErrMissing : List Char :=
  ("Please enter both username and password".toList)

def loginErrNoAccount : List Char :=
  ("Account not found. Please sign up first.".toList)

def loginErrPassword : List Char := ("Incorrect password".toList)

def signupErrShortUser : List Char :=
  ("Username must be at least 3 characters".toList)

def signupErrShortPass : List Char :=
  ("Password must be at least 4 characters".toList)

def signupErrExists : List Char := ("Username already exists".toList)

def login (st : AuthState) (username password : List Char) :
    AuthOutcome × AuthState :=
  let trimmed := normalizeUsername username
  if trimmed = [] ∨ password = [] then (.failure loginErrMissing, st)
  else
    match usersLookup st.users trimmed with
    | none => (.failure loginErrNoAccount, st)
    | some userData =>
      if userData.password ≠ password then (.failure loginErrPassword, st)
      else
        (.success, { st with currentUser := some ⟨userData.id, trimmed⟩ })

/-- `signup`; `newId` stands for the `Date.now() + random` id it mints. -/
def signup (st : AuthState) (username password newId : List Char) :
    AuthOutcome × AuthState :=
  let trimmed := normalizeUsername username
  if trimmed = [] ∨ password = [] then (.failure loginErrMissing, st)
  else if trimmed.length < 3 then (.failure signupErrShortUser, st)
  else if password.length < 4 then (.failure signupErrShortPass, st)
  else if (usersLookup st.users trimmed).isSome then (.failure signupErrExists, st)
  else
    (.success,
      { users := usersInsert st.users trimmed ⟨password, newId⟩,
        currentUser := some ⟨newId, trimmed⟩ })

/-! ### Digit strings: `natToChars` / `natFromChars` round-trip -/

theorem charToNat_ofNat_valid {n : Nat} (h : n.isValidChar) :
    (Char.ofNat n).toNat = n := by
  simp [Char.ofNat, h, Char.ofNatAux, Char.toNat, UInt32.toNat]

theorem toNat_digitChar {n : Nat} (h : n < 10) :
    (Char.ofNat (48 + n)).toNat = 48 + n :=
  charToNat_ofNat_valid (Or.inl (by omega))

theorem isDigitChar_digit {n : Nat} (h : n < 10) :
    isDigitChar (Char.ofNat (48 + n)) = true := by
  simp only [isDigitChar, toNat_digitChar h, decide_eq_true_eq]
  omega

theorem digitVal_digitChar {n : Nat} (h : n < 10) :
    digitVal (Char.ofNat (48 + n)) = n := by
  simp only [digitVal, toNat_digitChar h]
  omega

theorem natToChars_digits (n : Nat) : ∀ c ∈ natToChars n, isDigitChar c = true := by
  induction n using Nat.strong_induction_on with
  | _ n ih =>
    rw [natToChars]
    by_cases h : n < 10
    · simp only [dif_pos h, List.mem_singleton]
      intro c hc
      subst hc
      exact isDigitChar_digit h
    · simp only [dif_neg h]
      intro c hc
      rcases List.mem_append.mp hc with hc | hc
      · exact ih _ (Nat.div_lt_self (by omega) (by omega)) c hc
      · simp only [List.mem_singleton] at hc
        subst hc
        exact isDigitChar_digit (Nat.mod_lt _ (by omega))

theorem natToChars_ne_nil (n : Nat) : natToChars n ≠ [] := by
  rw [natToChars]
  by_cases h : n < 10
  · simp [dif_pos h]
  · simp [dif_neg h]

theorem natToChars_head_ne_zero {n : Nat} (hn : 0 < n) :
    (natToChars n).head? ≠ some '0' := by
  induction n using Nat.strong_induction_on with
  | _ n ih =>
    rw [natToChars]
    by_cases h : n < 10
    · simp only [dif_pos h, List.head?_cons]
      intro hc
      have h48 := congrArg Char.toNat (Option.some.inj hc)
      rw [toNat_digitChar h] at h48
      have h0 : ('0' : Char).toNat = 48 := by decide
      rw [h0] at h48
      omega
    · simp only [dif_neg h]
      rw [List.head?_append_of_ne_nil]
      · exact ih (n / 10) (Nat.div_lt_self (by omega) (by omega))
          (Nat.div_pos (by omega) (by omega))
      · exact natToChars_ne_nil _

theorem natFromCharsAux_append (acc : Nat) (l : List Char) (c : Char) :
    natFromCharsAux acc (l ++ [c]) = 10 * natFromCharsAux acc l + digitVal c := by
  induction l generalizing acc with
  | nil => rfl
  | cons d ds ih =>
    rw [List.cons_append,
      show natFromCharsAux acc (d :: (ds ++ [c]))
        = natFromCharsAux (10 * acc + digitVal d) (ds ++ [c]) from rfl,
      ih,
      show natFromCharsAux acc (d :: ds)
        = natFromCharsAux (10 * acc + digitVal d) ds from rfl]

theorem natFromCharsAux_natToChars (n : Nat) :
    natFromCharsAux 0 (natToChars n) = n := by
  induction n using Nat.strong_induction_on with
  | _ n ih =>
    rw [natToChars]
    by_cases h : n < 10
    · rw [dif_pos h]
      have hdv : digitVal (Char.ofNat (48 + n)) = n := digitVal_digitChar h
      generalize hch : Char.ofNat (48 + n) = ch at hdv ⊢
      rw [show natFromCharsAux 0 [ch] = 10 * 0 + digitVal ch from rfl, hdv]
      omega
    · rw [dif_neg h]
      have hdv : digitVal (Char.ofNat (48 + n % 10)) = n % 10 :=
        digitVal_digitChar (Nat.mod_lt _ (by omega : (0:Nat) < 10))
      generalize hch : Char.ofNat (48 + n % 10) = ch at hdv ⊢
      rw [natFromCharsAux_append,
        ih (n / 10) (Nat.div_lt_self (by omega) (by omega)), hdv]
      omega

theorem natFromChars_natToChars (n : Nat) :
    natFromChars (natToChars n) = some n := by
  rw [natFromChars, if_pos, natFromCharsAux_natToChars]
  exact ⟨natToChars_ne_nil n, List.all_eq_true.mpr (natToChars_digits n)⟩

/-! ### The printer/parser round-trip for the values the store serializes -/

/-- The character (if any) following a printed value inside a serialized
document: end of input, or a separator/closer.  Ensures a printed number
lexeme is not extended by what follows. -/
def Boundary : List Char → Prop
  | [] => True
  | c :: _ => c = ',' ∨ c = '}' ∨ c = ']'

theorem skipWs_not_ws {c : Char} (h : isWsChar c = false) (r : List Char) :
    skipWs (c :: r) = c :: r := by
  simp [skipWs, h]

theorem ne_of_digit_of_not_digit {c c' : Char} (h : isDigitChar c = true)
    (h' : isDigitChar c' = false) : c ≠ c' := by
  intro he
  subst he
  rw [h] at h'
  cases h'

theorem printStringBody_cons (c : Char) (cs : List Char) :
    printStringBody (c :: cs) = escapeChar c ++ printStringBody cs := by
  simp [printStringBody]

theorem hexVal_hexDigitChar {m : Nat} (h : m < 16) :
    hexVal (hexDigitChar m) = some m := by
  interval_cases m <;> decide

theorem parseStringBody_print (s rest : List Char) :
    parseStringBody (printStringBody s ++ '"' :: rest) = some (s, rest) := by
  induction s with
  | nil =>
    simp only [printStringBody, List.map_nil, List.flatten_nil, List.nil_append]
    rw [parseStringBody.eq_def]
    simp
  | cons c cs ih =>
    rw [printStringBody_cons, List.append_assoc]
    by_cases h1 : c = '"'
    · subst h1
      rw [show escapeChar '"' = ['\\', '"'] from by decide, List.cons_append,
        List.cons_append, List.nil_append, parseStringBody.eq_def]
      simp [escCharVal, ih]
    · by_cases h2 : c = '\\'
      · subst h2
        rw [show escapeChar '\\' = ['\\', '\\'] from by decide, List.cons_append,
          List.cons_append, List.nil_append, parseStringBody.eq_def]
        simp [escCharVal, ih]
      · by_cases h3 : c = '\x08'
        · subst h3
          rw [show escapeChar '\x08' = ['\\', 'b'] from by decide, List.cons_append,
            List.cons_append, List.nil_append, parseStringBody.eq_def]
          simp [escCharVal, ih]
        · by_cases h4 : c = '\x0C'
          · subst h4
            rw [show escapeChar '\x0C' = ['\\', 'f'] from by decide, List.cons_append,
              List.cons_append, List.nil_append, parseStringBody.eq_def]
            simp [escCharVal, ih]
          · by_cases h5 : c = '\n'
            · subst h5
              rw [show escapeChar '\n' = ['\\', 'n'] from by decide, List.cons_append,
                List.cons_append, List.nil_append, parseStringBody.eq_def]
              simp [escCharVal, ih]
            · by_cases h6 : c = '\r'
              · subst h6
                rw [show escapeChar '\r' = ['\\', 'r'] from by decide, List.cons_append,
                  List.cons_append, List.nil_append, parseStringBody.eq_def]
                simp [escCharVal, ih]
              · by_cases h7 : c = '\t'
                · subst h7
                  rw [show escapeChar '\t' = ['\\', 't'] from by decide, List.cons_append,
                    List.cons_append, List.nil_append, parseStringBody.eq_def]
                  simp [escCharVal, ih]
                · by_cases h8 : c.toNat < 32
                  · rw [show escapeChar c =
                        ['\\', 'u', '0', '0', hexDigitChar (c.toNat / 16),
                          hexDigitChar (c.toNat % 16)] by
                        simp [escapeChar, h1, h2, h3, h4, h5, h6, h7, h8]]
                    have hhi : hexVal (hexDigitChar (c.toNat / 16)) = some (c.toNat / 16) :=
                      hexVal_hexDigitChar (by omega)
                    have hlo : hexVal (hexDigitChar (c.toNat % 16)) = some (c.toNat % 16) :=
                      hexVal_hexDigitChar (by omega)
                    have hch : Char.ofNat (c.toNat / 16 * 16 + c.toNat % 16) = c := by
                      rw [show c.toNat / 16 * 16 + c.toNat % 16 = c.toNat by omega]
                      exact Char.ofNat_toNat c
                    simp only [List.cons_append, List.nil_append]
                    rw [parseStringBody.eq_def]
                    simp [show hexVal '0' = some 0 from by decide, hhi, hlo, hch, ih]
                  · rw [show escapeChar c = [c] by
                        simp [escapeChar, h1, h2, h3, h4, h5, h6, h7, h8],
                      List.cons_append, List.nil_append, parseStringBody.eq_def]
                    simp only [if_neg h1, if_neg h2, if_neg h8, ih]
                    simp

theorem parseValue_eq (f : Nat) (s : List Char) :
    parseValue (f + 1) s =
      match skipWs s with
      | [] => none
      | c :: r =>
        if c = '"' then (parseStringBody r).map (fun p => (Json.str p.1, p.2))
        else if c = '{' then
          match skipWs r with
          | '}' :: r2 => some (Json.obj [], r2)
          | _ => (parseMembers f r).map (fun p => (Json.obj p.1, p.2))
        else if c = '[' then
          match skipWs r with
          | ']' :: r2 => some (Json.arr [], r2)
          | _ => (parseElems f r).map (fun p => (Json.arr p.1, p.2))
        else if c = 't' then
          match r with
          | 'r' :: 'u' :: 'e' :: r2 => some (Json.bool true, r2)
          | _ => none
        else if c = 'f' then
          match r with
          | 'a' :: 'l' :: 's' :: 'e' :: r2 => some (Json.bool false, r2)
          | _ => none
        else if c = 'n' then
          match r with
          | 'u' :: 'l' :: 'l' :: r2 => some (Json.null, r2)
          | _ => none
        else parseNumber (c :: r) := by
  rw [parseValue.eq_def]

theorem parseMembers_eq (f : Nat) (s : List Char) :
    parseMembers (f + 1) s =
      match skipWs s with
      | '"' :: r =>
        match parseStringBody r with
        | none => none
        | some (k, s1) =>
          match skipWs s1 with
          | ':' :: s2 =>
            match parseValue f s2 with
            | none => none
            | some (v, s3) =>
              match skipWs s3 with
              | ',' :: s4 =>
                (parseMembers f s4).map (fun p => ((k, v) :: p.1, p.2))
              | '}' :: s4 => some ([(k, v)], s4)
              | _ => none
          | _ => none
      | _ => none := by
  rw [parseMembers.eq_def]

theorem parseElems_eq (f : Nat) (s : List Char) :
    parseElems (f + 1) s =
      match parseValue f s with
      | none => none
      | some (v, s1) =>
        match skipWs s1 with
        | ',' :: s2 => (parseElems f s2).map (fun p => (v :: p.1, p.2))
        | ']' :: s2 => some ([v], s2)
        | _ => none := by
  rw [parseElems.eq_def]

theorem boundary_head_facts {c : Char} {r : List Char} (hb : Boundary (c :: r)) :
    isDigitChar c = false ∧ c ≠ '.' ∧ c ≠ 'e' ∧ c ≠ 'E' ∧ isWsChar c = false := by
  rcases hb with h | h | h <;> subst h <;>
    exact ⟨by decide, by decide, by decide, by decide, by decide⟩

theorem digit_not_ws {c : Char} (h : isDigitChar c = true) : isWsChar c = false := by
  have h1 : c ≠ ' ' := ne_of_digit_of_not_digit h (by decide)
  have h2 : c ≠ '\t' := ne_of_digit_of_not_digit h (by decide)
  have h3 : c ≠ '\n' := ne_of_digit_of_not_digit h (by decide)
  have h4 : c ≠ '\r' := ne_of_digit_of_not_digit h (by decide)
  simp [isWsChar, h1, h2, h3, h4]

theorem takeDigits_append {ds rest : List Char}
    (hds : ∀ c ∈ ds, isDigitChar c = true) (hb : Boundary rest) :
    takeDigits (ds ++ rest) = (ds, rest) := by
  induction ds with
  | nil =>
    cases rest with
    | nil => rfl
    | cons c r =>
      have hc : isDigitChar c = false := (boundary_head_facts hb).1
      simp [takeDigits, hc]
  | cons d ds' ih =>
    have hd := hds d (by simp)
    simp [takeDigits, hd, ih (fun c hc => hds c (by simp [hc]))]

theorem parseNumTail_print {ds rest : List Char} (hne : ds ≠ [])
    (hds : ∀ c ∈ ds, isDigitChar c = true)
    (hz : ¬(ds.head? = some '0' ∧ ds.length ≠ 1)) (hb : Boundary rest) :
    parseNumTail (ds ++ rest) = some (ds, rest) := by
  rw [parseNumTail, takeDigits_append hds hb]
  obtain ⟨d, ds', rfl⟩ := List.exists_cons_of_ne_nil hne
  simp only []
  rw [if_neg hz]
  cases rest with
  | nil => simp
  | cons c r =>
    obtain ⟨hcd, hcdot, hce, hcE, -⟩ := boundary_head_facts hb
    simp [if_neg hcdot, hcdot, hce, hcE]

theorem natToChars_no_leading_zero (n : Nat) :
    ¬((natToChars n).head? = some '0' ∧ (natToChars n).length ≠ 1) := by
  by_cases h : n < 10
  · rw [natToChars, dif_pos h]
    simp
  · intro hc
    exact natToChars_head_ne_zero (by omega) hc.1

theorem parseValue_print_nat (f : Nat) (n : Nat) (rest : List Char)
    (hb : Boundary rest) :
    parseValue (f + 1) (natToChars n ++ rest) = some (.num (natToChars n), rest) := by
  have hdig : ∀ c ∈ natToChars n, isDigitChar c = true := natToChars_digits n
  have hz := natToChars_no_leading_zero n
  have hpt : parseNumTail (natToChars n ++ rest) = some (natToChars n, rest) :=
    parseNumTail_print (natToChars_ne_nil n) hdig hz hb
  obtain ⟨d, ds', hds⟩ := List.exists_cons_of_ne_nil (natToChars_ne_nil n)
  have hd : isDigitChar d = true := hdig d (by rw [hds]; simp)
  rw [hds] at hpt ⊢
  rw [List.cons_append, parseValue_eq, skipWs_not_ws (digit_not_ws hd)]
  have h1 : d ≠ '"' := ne_of_digit_of_not_digit hd (by decide)
  have h2 : d ≠ '{' := ne_of_digit_of_not_digit hd (by decide)
  have h3 : d ≠ '[' := ne_of_digit_of_not_digit hd (by decide)
  have h4 : d ≠ 't' := ne_of_digit_of_not_digit hd (by decide)
  have h5 : d ≠ 'f' := ne_of_digit_of_not_digit hd (by decide)
  have h6 : d ≠ 'n' := ne_of_digit_of_not_digit hd (by decide)
  have h7 : d ≠ '-' := ne_of_digit_of_not_digit hd (by decide)
  simp only [if_neg h1, if_neg h2, if_neg h3, if_neg h4, if_neg h5, if_neg h6]
  simp only [parseNumber, if_neg h7, ← List.cons_append, hpt]
  rfl

theorem parseValue_print_str (f : Nat) (s rest : List Char) :
    parseValue (f + 1) (printString s ++ rest) = some (.str s, rest) := by
  have hsplit : printString s ++ rest = '"' :: (printStringBody s ++ '"' :: rest) := by
    simp [printString]
  rw [hsplit, parseValue_eq, skipWs_not_ws (by decide)]
  simp [parseStringBody_print]

/-- A value whose printed form parses back to itself (with enough fuel and a
separator or end of input after it). -/
def ParsesBack (v : Json) : Prop :=
  ∀ f rest, (stringifyJson v).length + 1 ≤ f → Boundary rest →
    parseValue f (stringifyJson v ++ rest) = some (v, rest)

theorem stringifyJson_str (s : List Char) :
    stringifyJson (.str s) = printString s := by
  rw [stringifyJson.eq_def]

theorem stringifyJson_num (raw : List Char) : stringifyJson (.num raw) = raw := by
  rw [stringifyJson.eq_def]

theorem stringifyJson_arr (xs : List Json) :
    stringifyJson (.arr xs) = '[' :: stringifyElems xs ++ [']'] := by
  rw [stringifyJson.eq_def]

theorem stringifyJson_obj (ms : List (List Char × Json)) :
    stringifyJson (.obj ms) = '{' :: stringifyMembers ms ++ ['}'] := by
  rw [stringifyJson.eq_def]

theorem stringifyMembers_single (k : List Char) (v : Json) :
    stringifyMembers [(k, v)] = printString k ++ ':' :: stringifyJson v := by
  rw [stringifyMembers.eq_def]

theorem stringifyMembers_cons₂ (k : List Char) (v : Json) (m : List Char × Json)
    (ms : List (List Char × Json)) :
    stringifyMembers ((k, v) :: m :: ms) =
      printString k ++ ':' :: stringifyJson v ++ ',' :: stringifyMembers (m :: ms) := by
  rw [stringifyMembers.eq_def]

theorem stringifyElems_single (v : Json) : stringifyElems [v] = stringifyJson v := by
  rw [stringifyElems.eq_def]

theorem stringifyElems_cons₂ (v w : Json) (ws : List Json) :
    stringifyElems (v :: w :: ws) =
      stringifyJson v ++ ',' :: stringifyElems (w :: ws) := by
  rw [stringifyElems.eq_def]

theorem parsesBack_str (s : List Char) : ParsesBack (.str s) := by
  intro f rest hf hb
  obtain ⟨f', rfl⟩ : ∃ g, f = g + 1 := ⟨f - 1, by omega⟩
  rw [stringifyJson_str]
  exact parseValue_print_str f' s rest

theorem parsesBack_nat (n : Nat) : ParsesBack (.num (natToChars n)) := by
  intro f rest hf hb
  obtain ⟨f', rfl⟩ : ∃ g, f = g + 1 := ⟨f - 1, by omega⟩
  rw [stringifyJson_num]
  exact parseValue_print_nat f' n rest hb

theorem stringifyMembers_head_quote (m : List Char × Json)
    (ms : List (List Char × Json)) :
    ∃ u, stringifyMembers (m :: ms) = '"' :: u := by
  obtain ⟨k, v⟩ := m
  cases ms with
  | nil =>
    refine ⟨printStringBody k ++ '"' :: (':' :: stringifyJson v), ?_⟩
    rw [stringifyMembers_single]
    simp [printString]
  | cons m2 tl =>
    refine ⟨printStringBody k ++ '"' ::
      (':' :: (stringifyJson v ++ ',' :: stringifyMembers (m2 :: tl))), ?_⟩
    rw [stringifyMembers_cons₂]
    simp [printString]

theorem parseMembers_print (ms : List (List Char × Json)) (hms : ms ≠ [])
    (hv : ∀ m ∈ ms, ParsesBack m.2) (f : Nat) (rest : List Char)
    (hf : (stringifyMembers ms).length + 2 ≤ f) :
    parseMembers f (stringifyMembers ms ++ '}' :: rest) = some (ms, rest) := by
  induction ms generalizing f rest with
  | nil => exact absurd rfl hms
  | cons m tail ih =>
    obtain ⟨k, v⟩ := m
    obtain ⟨f', rfl⟩ : ∃ g, f = g + 1 := ⟨f - 1, by omega⟩
    cases tail with
    | nil =>
      rw [stringifyMembers_single] at hf ⊢
      have hval := hv (k, v) (by simp) f' ('}' :: rest)
        (show (stringifyJson v).length + 1 ≤ f' by
          simp only [printString, List.length_append, List.length_cons] at hf
          omega)
        (Or.inr (Or.inl rfl))
      have hsplit : (printString k ++ ':' :: stringifyJson v) ++ '}' :: rest
          = '"' :: (printStringBody k ++ '"' ::
              (':' :: (stringifyJson v ++ '}' :: rest))) := by
        simp [printString]
      rw [hsplit, parseMembers_eq, skipWs_not_ws (by decide)]
      simp only [parseStringBody_print,
        skipWs_not_ws (show isWsChar ':' = false from by decide), hval,
        skipWs_not_ws (show isWsChar '}' = false from by decide)]
    | cons m2 tl =>
      rw [stringifyMembers_cons₂] at hf ⊢
      have hval := hv (k, v) (by simp) f'
        (',' :: (stringifyMembers (m2 :: tl) ++ '}' :: rest))
        (show (stringifyJson v).length + 1 ≤ f' by
          simp only [printString, List.length_append, List.length_cons] at hf
          omega)
        (Or.inl rfl)
      have hrec := ih (by simp) (fun m hm => hv m (by simp [hm])) f' rest
        (by simp only [printString, List.length_append, List.length_cons] at hf
            omega)
      have hsplit : (printString k ++ ':' :: stringifyJson v ++
            ',' :: stringifyMembers (m2 :: tl)) ++ '}' :: rest
          = '"' :: (printStringBody k ++ '"' ::
              (':' :: (stringifyJson v ++
                ',' :: (stringifyMembers (m2 :: tl) ++ '}' :: rest)))) := by
        simp [printString]
      rw [hsplit, parseMembers_eq, skipWs_not_ws (by decide)]
      simp only [parseStringBody_print,
        skipWs_not_ws (show isWsChar ':' = false from by decide), hval,
        skipWs_not_ws (show isWsChar ',' = false from by decide), hrec]
      rfl

theorem parseElems_print (xs : List Json) (hxs : xs ≠ [])
    (hv : ∀ v ∈ xs, ParsesBack v) (f : Nat) (rest : List Char)
    (hf : (stringifyElems xs).length + 2 ≤ f) :
    parseElems f (stringifyElems xs ++ ']' :: rest) = some (xs, rest) := by
  induction xs generalizing f rest with
  | nil => exact absurd rfl hxs
  | cons v tail ih =>
    obtain ⟨f', rfl⟩ : ∃ g, f = g + 1 := ⟨f - 1, by omega⟩
    cases tail with
    | nil =>
      rw [stringifyElems_single] at hf ⊢
      have hval := hv v (by simp) f' (']' :: rest) (by omega)
        (Or.inr (Or.inr rfl))
      rw [parseElems_eq]
      simp only [hval, skipWs_not_ws (show isWsChar ']' = false from by decide)]
    | cons w ws =>
      rw [stringifyElems_cons₂] at hf ⊢
      have hval := hv v (by simp) f'
        (',' :: (stringifyElems (w :: ws) ++ ']' :: rest))
        (by simp only [List.length_append, List.length_cons] at hf; omega)
        (Or.inl rfl)
      have hrec := ih (by simp) (fun u hu => hv u (by simp [hu])) f' rest
        (by simp only [List.length_append, List.length_cons] at hf; omega)
      rw [List.append_assoc, List.cons_append, parseElems_eq]
      simp only [List.append_assoc, List.cons_append, hval,
        skipWs_not_ws (show isWsChar ',' = false from by decide), hrec]
      rfl

theorem parsesBack_obj (ms : List (List Char × Json))
    (hv : ∀ m ∈ ms, ParsesBack m.2) : ParsesBack (.obj ms) := by
  intro f rest hf hb
  obtain ⟨f', rfl⟩ : ∃ g, f = g + 1 := ⟨f - 1, by omega⟩
  rw [stringifyJson_obj] at hf ⊢
  cases ms with
  | nil =>
    rw [show stringifyMembers [] = [] from by rw [stringifyMembers.eq_def]]
    rw [show ('{' :: ([] : List Char) ++ ['}']) ++ rest
        = '{' :: ('}' :: rest) from by simp]
    rw [parseValue_eq, skipWs_not_ws (by decide)]
    simp [skipWs_not_ws (show isWsChar '}' = false from by decide)]
  | cons m tail =>
    obtain ⟨u, hu⟩ := stringifyMembers_head_quote m tail
    have hsplit : ('{' :: stringifyMembers (m :: tail) ++ ['}']) ++ rest
        = '{' :: (stringifyMembers (m :: tail) ++ '}' :: rest) := by
      simp
    have hmem := parseMembers_print (m :: tail) (by simp) hv f' rest
      (by simp only [List.length_cons, List.length_append] at hf; omega)
    rw [hsplit, parseValue_eq, skipWs_not_ws (by decide)]
    rw [hu] at hmem ⊢
    simp only [List.cons_append] at hmem ⊢
    simp [skipWs_not_ws (show isWsChar '"' = false from by decide), hmem]

theorem parsesBack_arr_of_objHeads (xs : List Json)
    (hv : ∀ v ∈ xs, ParsesBack v)
    (hhead : ∀ v ∈ xs, ∃ u, stringifyJson v = '{' :: u) : ParsesBack (.arr xs) := by
  intro f rest hf hb
  obtain ⟨f', rfl⟩ : ∃ g, f = g + 1 := ⟨f - 1, by omega⟩
  rw [stringifyJson_arr] at hf ⊢
  cases xs with
  | nil =>
    rw [show stringifyElems [] = [] from by rw [stringifyElems.eq_def]]
    rw [show ('[' :: ([] : List Char) ++ [']']) ++ rest
        = '[' :: (']' :: rest) from by simp]
    rw [parseValue_eq, skipWs_not_ws (by decide)]
    simp [skipWs_not_ws (show isWsChar ']' = false from by decide)]
  | cons v tail =>
    obtain ⟨u, hu⟩ := hhead v (by simp)
    have hhd : ∃ w, stringifyElems (v :: tail) = '{' :: w := by
      cases tail with
      | nil => exact ⟨u, by rw [stringifyElems_single, hu]⟩
      | cons w ws =>
        exact ⟨u ++ ',' :: stringifyElems (w :: ws), by
          rw [stringifyElems_cons₂, hu]; simp⟩
    obtain ⟨w, hw⟩ := hhd
    have hsplit : ('[' :: stringifyElems (v :: tail) ++ [']']) ++ rest
        = '[' :: (stringifyElems (v :: tail) ++ ']' :: rest) := by
      simp
    have helems := parseElems_print (v :: tail) (by simp) hv f' rest
      (by simp only [List.length_cons, List.length_append] at hf; omega)
    rw [hsplit, parseValue_eq, skipWs_not_ws (by decide)]
    rw [hw] at helems ⊢
    simp only [List.cons_append] at helems ⊢
    simp [skipWs_not_ws (show isWsChar '{' = false from by decide), helems]

theorem parsesBack_encodeMsg (m : Message) : ParsesBack (encodeMsg m) := by
  rw [encodeMsg]
  apply parsesBack_obj
  intro x hx
  cases himg : m.imageBase64 with
  | none =>
    rw [himg] at hx
    simp only [List.append_nil, List.mem_cons, List.not_mem_nil, or_false] at hx
    rcases hx with rfl | rfl | rfl | rfl
    · exact parsesBack_str m.id
    · exact parsesBack_str (roleChars m.role)
    · exact parsesBack_str m.content
    · exact parsesBack_nat m.timestamp
  | some b =>
    rw [himg] at hx
    simp only [List.mem_append, List.mem_cons, List.not_mem_nil, or_false] at hx
    rcases hx with (rfl | rfl | rfl | rfl) | rfl
    · exact parsesBack_str m.id
    · exact parsesBack_str (roleChars m.role)
    · exact parsesBack_str m.content
    · exact parsesBack_nat m.timestamp
    · exact parsesBack_str b

theorem encodeMsg_head (m : Message) :
    ∃ u, stringifyJson (encodeMsg m) = '{' :: u := by
  rw [encodeMsg, stringifyJson_obj]
  exact ⟨stringifyMembers _ ++ ['}'], rfl⟩

theorem parsesBack_encodeConv (c : Conversation) : ParsesBack (encodeConv c) := by
  rw [encodeConv]
  apply parsesBack_obj
  intro x hx
  simp only [List.mem_cons, List.not_mem_nil, or_false] at hx
  rcases hx with rfl | rfl | rfl | rfl | rfl
  · exact parsesBack_str c.id
  · exact parsesBack_str c.title
  · exact parsesBack_arr_of_objHeads _
      (by intro v hv
          obtain ⟨m, -, rfl⟩ := List.mem_map.mp hv
          exact parsesBack_encodeMsg m)
      (by intro v hv
          obtain ⟨m, -, rfl⟩ := List.mem_map.mp hv
          exact encodeMsg_head m)
  · exact parsesBack_nat c.createdAt
  · exact parsesBack_nat c.updatedAt

theorem encodeConv_head (c : Conversation) :
    ∃ u, stringifyJson (encodeConv c) = '{' :: u := by
  rw [encodeConv, stringifyJson_obj]
  exact ⟨stringifyMembers _ ++ ['}'], rfl⟩

theorem parsesBack_encodeConvs (l : List Conversation) :
    ParsesBack (encodeConvs l) := by
  rw [encodeConvs]
  apply parsesBack_arr_of_objHeads
  · intro v hv
    obtain ⟨c, -, rfl⟩ := List.mem_map.mp hv
    exact parsesBack_encodeConv c
  · intro v hv
    obtain ⟨c, -, rfl⟩ := List.mem_map.mp hv
    exact encodeConv_head c

/-- `JSON.parse(JSON.stringify(conversations))` recovers exactly the JSON
value of the conversation list. -/
theorem jsonParse_serialize (l : List Conversation) :
    jsonParse (serializeConversations l) = some (encodeConvs l) := by
  rw [jsonParse]
  have h := parsesBack_encodeConvs l ((serializeConversations l).length + 1) []
    (by rw [serializeConversations]) trivial
  rw [List.append_nil] at h
  rw [serializeConversations] at *
  rw [h]
  rfl

theorem decodeMsg_encodeMsg (m : Message) : decodeMsg (encodeMsg m) = some m := by
  obtain ⟨i, r, co, t, img⟩ := m
  cases img with
  | none =>
    cases r <;>
      simp [decodeMsg, encodeMsg, Json.getField, asStr, asNat, decodeRole,
        roleChars, idKey, roleKey, contentKey, timestampKey, imageKey,
        natFromChars_natToChars]
  | some b =>
    cases r <;>
      simp [decodeMsg, encodeMsg, Json.getField, asStr, asNat, decodeRole,
        roleChars, idKey, roleKey, contentKey, timestampKey, imageKey,
        natFromChars_natToChars]

theorem decodeMsgList_map (msgs : List Message) :
    decodeMsgList (msgs.map encodeMsg) = some msgs := by
  induction msgs with
  | nil => rfl
  | cons m ms ih => simp [decodeMsgList, decodeMsg_encodeMsg, ih]

theorem decodeConv_encodeConv (c : Conversation) :
    decodeConv (encodeConv c) = some c := by
  obtain ⟨i, t, msgs, ca, ua⟩ := c
  simp [decodeConv, encodeConv, Json.getField, asStr, asNat,
    idKey, titleKey, messagesKey, createdAtKey, updatedAtKey, imageKey,
    natFromChars_natToChars, decodeMsgList_map]

theorem decodeConvs_encodeConvs (l : List Conversation) :
    decodeConvs (encodeConvs l) = some l := by
  rw [encodeConvs, decodeConvs]
  induction l with
  | nil => rfl
  | cons c cs ih => simp_all [decodeConvList, decodeConv_encodeConv]

/-- `JSON.parse` of `JSON.stringify(conversations)` recovers an equal
conversation list: the full string-level round trip. -/
theorem parseConversations_serialize (l : List Conversation) :
    parseConversations (serializeConversations l) = some l := by
  rw [parseConversations, jsonParse_serialize]
  simpa using decodeConvs_encodeConvs l

/-! ### Claim C1: content deltas in the stream -/

def c1Text : List Char :=
  ("data: \x7b\"content\":\"Hi\"\x7d\ndata: \x7b\"content\":\"Hi there\"\x7d\ndata: [DONE]\n".toList)

def c1Chunks : List (List Char) :=
  [("data: \x7b\"content\":\"Hi\"\x7d\n".toList),
   ("data: \x7b\"content\":\"Hi there\"\x7d\n".toList),
   ("data: [DONE]\n".toList)]

/-- C1 counterexample: on the spec's own input — lines `data:
{"content":"Hi"}`, `data: {"content":"Hi there"}`, `data: [DONE]` — the code
(`fullContent += parsed.content`) concatenates the deltas, so the second
observation is "HiHi there", not "Hi there", and the persisted assistant
message is "HiHi there". -/
theorem c1_cumulative_replace_fails :
    (runHandleSend true c1Chunks false).observations
        = [("Hi".toList), ("HiHi there".toList)]
      ∧ (runHandleSend true c1Chunks false).persisted = [("HiHi there".toList)]
      ∧ ("HiHi there".toList) ≠ ("Hi there".toList)
      ∧ [("Hi".toList), ("HiHi there".toList)]
          ≠ [("Hi".toList), ("Hi there".toList)] := by
  refine ⟨by decide, by decide, by decide, by decide⟩

/-- C1 amended: for ANY chunking of that response text (including mid-line
splits), each delta's `content` is treated as an increment and concatenated
onto the accumulated text (which then replaces the in-progress assistant
message's content wholesale): the engine yields exactly the two observations
"Hi" then "HiHi there" and persists exactly one assistant message
"HiHi there" via `addMessage`. -/
theorem c1_incremental_concat (chunks : List (List Char))
    (h : chunks.flatten = c1Text) :
    runHandleSend true chunks false
      = { persisted := [("HiHi there".toList)]
          fallbackShownLive := false
          observations := [("Hi".toList), ("HiHi there".toList)] } := by
  have hj : runStream chunks = runStream [c1Text] := by
    rw [runStream_eq_join, h]
  simp only [runHandleSend, hj]
  decide

/-- C1 amended, witnessed at a chunking that splits lines mid-way. -/
theorem c1_incremental_concat_witness :
    runHandleSend true
        [("data: \x7b\"cont".toList), ("ent\":\"Hi\"\x7d\nda".toList),
         ("ta: \x7b\"content\":\"Hi there\"\x7d\ndata: [DONE]\n".toList)] false
      = { persisted := [("HiHi there".toList)]
          fallbackShownLive := false
          observations := [("Hi".toList), ("HiHi there".toList)] } :=
  c1_incremental_concat _ (by decide)

/-! ### Claim C3: failure handling in `handleSend` -/

def c3Chunks : List (List Char) :=
  [("data: \x7b\"content\":\"Hi\"\x7d\ndata: \x7b\"error\":\"boom\"\x7d\n".toList)]

/-- C3 counterexample: content "Hi" has already streamed (one observation,
`assistantAdded` is true) when the `{error}` frame arrives, yet the `catch`
block persists the fallback message via `addMessage` unconditionally — only
the live-view append is skipped. -/
theorem c3_fallback_persisted_over_live_content :
    (runHandleSend true c3Chunks false).observations = [("Hi".toList)]
      ∧ (runHandleSend true c3Chunks false).persisted = [fallbackContent]
      ∧ (runHandleSend true c3Chunks false).fallbackShownLive = false := by
  refine ⟨by decide, by decide, by decide⟩

/-- C3 amended: on every failure (non-success HTTP status, an `{error}`
frame, or a transport error while reading), `handleSend` persists the single
fixed fallback assistant message via `addMessage` — even when content had
already streamed; only the append of the fallback to the live message list
is conditional on no assistant content having started. -/
theorem c3_failure_always_persists_fallback (chunks : List (List Char)) :
    (∀ rf : Bool, (runHandleSend false chunks rf).persisted = [fallbackContent]
      ∧ (runHandleSend false chunks rf).fallbackShownLive = true)
    ∧ (∀ rf : Bool, ∀ e : StreamErr, runStream chunks = .error e →
        (runHandleSend true chunks rf).persisted = [fallbackContent]
        ∧ (runHandleSend true chunks rf).fallbackShownLive
            = !e.atThrow.assistantAdded)
    ∧ (∀ bs : BufState, runStream chunks = .ok bs →
        (runHandleSend true chunks true).persisted = [fallbackContent]
        ∧ (runHandleSend true chunks true).fallbackShownLive
            = !bs.st.assistantAdded) := by
  refine ⟨fun rf => ⟨by simp [runHandleSend], by simp [runHandleSend]⟩, ?_, ?_⟩
  · intro rf e he
    constructor <;> simp [runHandleSend, he]
  · intro bs hb
    constructor <;> simp [runHandleSend, hb]

/-- C3 amended, witnessed on the content-then-error stream: the fallback is
persisted and not shown live (content had already streamed). -/
theorem c3_failure_always_persists_fallback_witness :
    (runHandleSend true c3Chunks false).persisted = [fallbackContent]
      ∧ (runHandleSend true c3Chunks false).fallbackShownLive
          = !(true : Bool) := by
  have h := (c3_failure_always_persists_fallback c3Chunks).2.1 false
    ⟨⟨("Hi".toList), true, [("Hi".toList)]⟩, ("boom".toList)⟩ (by rfl)
  exact h

/-! ### Claim C6: carry-over buffer framing -/

/-- C6: the framing loop's carry-over buffer makes ingestion independent of
chunk boundaries (any chunking behaves like the whole text at once); a final
chunk holding only a partial line (no newline) merely extends the carry-over
buffer, leaving the ingest state untouched, and the `handleSend` outcome
discards such trailing carry-over content entirely. -/
theorem stream_framing_carry_over (chunks : List (List Char)) (p : List Char)
    (hp : noNl p) :
    runStream chunks = runStream [chunks.flatten]
    ∧ runStream (chunks ++ [p])
        = (runStream chunks).map (fun bs => ⟨bs.buffer ++ p, bs.st⟩)
    ∧ runHandleSend true (chunks ++ [p]) false = runHandleSend true chunks false := by
  have h2 := runStream_trailing_partial chunks p hp
  refine ⟨runStream_eq_join chunks, h2, ?_⟩
  simp only [runHandleSend, h2]
  cases runStream chunks <;> rfl

/-- C6 witnessed: a trailing `data: {"content":"lost` fragment with no
newline is never processed — the outcome equals that of the complete lines
alone. -/
theorem stream_framing_carry_over_witness :
    runHandleSend true
        ([("data: \x7b\"content\":\"ok\"\x7d\n".toList)]
          ++ [("data: \x7b\"content\":\"lost".toList)]) false
      = runHandleSend true [("data: \x7b\"content\":\"ok\"\x7d\n".toList)] false :=
  (stream_framing_carry_over [("data: \x7b\"content\":\"ok\"\x7d\n".toList)]
    ("data: \x7b\"content\":\"lost".toList) (by decide)).2.2

/-! ### Claim C7: per-line error handling -/

def errorKey : List Char := ('e' :: ['r', 'r', 'o', 'r'])

/-- C7: a `data: ` line whose payload is malformed JSON (a `SyntaxError`
from `JSON.parse`) is silently skipped — the ingest state is unchanged and
the stream is not aborted — while a line whose parsed payload has a truthy
`error` field raises a non-`SyntaxError` exception that propagates, aborting
the stream as a failure (after any `content` on the same frame was applied). -/
theorem processLine_skip_malformed_propagate_error
    (st : IngestState) (payload : List Char) :
    (jsonParse payload = none → processLine st (dataMarker ++ payload) = .ok st)
    ∧ (∀ v : Json, jsonParse payload = some v →
        truthyOpt (v.getField errorKey) = true →
        ∃ e : StreamErr, processLine st (dataMarker ++ payload) = .error e) := by
  have htake : (dataMarker ++ payload).take 6 = dataMarker := by
    simp [dataMarker]
  have hdrop : (dataMarker ++ payload).drop 6 = payload := by
    simp [dataMarker]
  constructor
  · intro hp
    simp only [processLine, hdrop]
    rw [if_neg (by rw [htake]; exact not_not_intro rfl)]
    by_cases hdone : payload = doneSentinel
    · rw [if_pos hdone]
    · rw [if_neg hdone, hp]
  · intro v hv htr
    have hdone : payload ≠ doneSentinel := by
      intro hd
      rw [hd, show jsonParse doneSentinel = none from rfl] at hv
      cases hv
    cases hres : processLine st (dataMarker ++ payload) with
    | error e => exact ⟨e, rfl⟩
    | ok st' =>
      exfalso
      simp only [errorKey] at htr
      simp only [processLine, hdrop, hv, if_pos htr] at hres
      rw [if_neg (by rw [htake]; exact not_not_intro rfl)] at hres
      rw [if_neg hdone] at hres
      cases hres

/-- C7 witnessed: the malformed line `data: {not json` is skipped and a
valid line later in the same chunk is still observed; an `{error}` frame
aborts. -/
theorem processLine_skip_malformed_witness :
    processLine ⟨[], false, []⟩ (dataMarker ++ ("\x7bnot json".toList))
        = .ok ⟨[], false, []⟩
    ∧ (runHandleSend true
        [("data: \x7bnot json\ndata: \x7b\"content\":\"ok\"\x7d\n".toList)]
        false).observations = [("ok".toList)]
    ∧ (∃ e : StreamErr, processLine ⟨[], false, []⟩
        (dataMarker ++ ("\x7b\"error\":\"boom\"\x7d".toList)) = .error e) := by
  refine ⟨?_, by decide, ?_⟩
  · exact (processLine_skip_malformed_propagate_error ⟨[], false, []⟩
      ("\x7bnot json".toList)).1 (by rfl)
  · exact (processLine_skip_malformed_propagate_error ⟨[], false, []⟩
      ("\x7b\"error\":\"boom\"\x7d".toList)).2 (.obj [(errorKey, .str ("boom".toList))])
      (by rfl) (by decide)

/-! ### Claim C2: identity switch while a load is pending -/

def convA : Conversation :=
  ⟨("a1".toList), ("A chats".toList), [], 1, 1⟩

def convB : Conversation :=
  ⟨("b1".toList), ("B chats".toList), [], 2, 2⟩

def keyA : List Char := ("nexus_chats_userA".toList)

def keyB : List Char := ("nexus_chats_userB".toList)

/-- Persistent storage holding A's and B's conversation sets. -/
def raceStorage : List Char → Option (List Char) := fun k =>
  if k = keyA then some (serializeConversations [convA])
  else if k = keyB then some (serializeConversations [convB])
  else none

/-- Switch to A, then to B while A's `getItem` is still pending; B's load
resolves first, then A's stale load resolves. -/
def raceEvents : List ProviderEvent :=
  [.setKey (some keyA), .setKey (some keyB), .resolve 1, .resolve 0]

/-- C2 fails on the code: `loadConversations` installs whatever its
`getItem` returns with no check that its key is still the active one, so
when A's slower load resolves after B's, the retained in-memory set is A's
persisted set — not B's. -/
theorem loadConversations_stale_load_wins :
    (runProvider raceStorage ⟨[], false, []⟩ raceEvents).conversations = [convA]
    ∧ [convA] ≠ [convB] := by
  constructor
  · have hA := parseConversations_serialize [convA]
    have hB := parseConversations_serialize [convB]
    simp only [runProvider, raceEvents, List.foldl, applyProviderEvent]
    simp only [List.nil_append, List.cons_append]
    simp [raceStorage, keyA, keyB, hA, hB]
  · decide

/-! ### Claim C4: in-memory reflection and persistence round trip -/

theorem applyOp_conversations (st : StoreState) (op : StoreOp) :
    (applyOp st op).conversations = applyOpConvs st.conversations op := by
  cases op <;> rfl

theorem runOps_conversations (st : StoreState) (ops : List StoreOp) :
    (runOps st ops).conversations = ops.foldl applyOpConvs st.conversations := by
  induction ops generalizing st with
  | nil => rfl
  | cons op rest ih =>
    show (runOps (applyOp st op) rest).conversations = _
    rw [ih (applyOp st op), applyOp_conversations]
    rfl

theorem persistNow_storage {st : StoreState} {k : List Char}
    (hk : st.activeKey = some k) :
    (persistNow st).storage k = some (serializeConversations st.conversations) := by
  simp only [persistNow, hk]
  simp

/-- C4: every `createConversation` / `deleteConversation` / `addMessage`
call is reflected immediately and in order in the in-memory list (the run of
the store equals the pure fold of the per-call list effects); and after
`persistNow` completes, the string stored under the active identity's key,
when loaded and parsed, equals the in-memory set. -/
theorem storeOps_reflect_and_round_trip (st : StoreState) (ops : List StoreOp) :
    (runOps st ops).conversations = ops.foldl applyOpConvs st.conversations
    ∧ ∀ k, (runOps st ops).activeKey = some k →
        (persistNow (runOps st ops)).storage k
          = some (serializeConversations (runOps st ops).conversations)
        ∧ parseConversations (serializeConversations (runOps st ops).conversations)
          = some (runOps st ops).conversations :=
  ⟨runOps_conversations st ops,
    fun _ hk => ⟨persistNow_storage hk, parseConversations_serialize _⟩⟩

def c4InitState : StoreState :=
  ⟨[], some ("nexus_chats_u1".toList), false, fun _ => none⟩

def c4Ops : List StoreOp :=
  [.createOp ("c1".toList) none 5,
   .addMsgOp ("c1".toList) ⟨("m1".toList), .user, ("hello".toList), 6, none⟩ 6,
   .deleteOp ("zz".toList)]

/-- C4 witnessed on a concrete call sequence under an active identity. -/
theorem storeOps_reflect_and_round_trip_witness :
    (runOps c4InitState c4Ops).conversations
        = c4Ops.foldl applyOpConvs c4InitState.conversations
    ∧ (persistNow (runOps c4InitState c4Ops)).storage ("nexus_chats_u1".toList)
        = some (serializeConversations (runOps c4InitState c4Ops).conversations)
    ∧ parseConversations
          (serializeConversations (runOps c4InitState c4Ops).conversations)
        = some (runOps c4InitState c4Ops).conversations := by
  have h := storeOps_reflect_and_round_trip c4InitState c4Ops
  have hk := h.2 ("nexus_chats_u1".toList) (by rfl)
  exact ⟨h.1, hk.1, hk.2⟩

/-! ### Claim C5: `updateLastMessage` performs and schedules no write -/

def applyULMs (st : StoreState)
    (calls : List ((List Char) × (List Char) × Nat)) : StoreState :=
  calls.foldl (fun s c => updateLastMessage s c.1 c.2.1 c.2.2) st

/-- C5: any number of `updateLastMessage` calls leave the persistent store's
contents, the pending-timer state and the active key untouched — the
operation neither performs nor schedules a write — whereas each of
`createConversation`, `deleteConversation`, `addMessage` and
`updateConversationTitle` (re)schedules the debounced save timer. -/
theorem updateLastMessage_no_write (st : StoreState)
    (calls : List ((List Char) × (List Char) × Nat)) :
    (applyULMs st calls).storage = st.storage
    ∧ (applyULMs st calls).timerPending = st.timerPending
    ∧ (applyULMs st calls).activeKey = st.activeKey
    ∧ (∀ id title now, (createConversation st id title now).timerPending = true)
    ∧ (∀ id, (deleteConversation st id).timerPending = true)
    ∧ (∀ cid m now, (addMessage st cid m now).timerPending = true)
    ∧ (∀ cid title, (updateConversationTitle st cid title).timerPending = true) := by
  refine ⟨?_, ?_, ?_, fun _ _ _ => rfl, fun _ => rfl, fun _ _ _ => rfl,
    fun _ _ => rfl⟩ <;>
  · induction calls generalizing st with
    | nil => rfl
    | cons c cs ih => exact ih (updateLastMessage st c.1 c.2.1 c.2.2)

/-! ### Claim C8: `generateMessageId` uniqueness within a process -/

theorem natToChars_injective {a b : Nat} (h : natToChars a = natToChars b) :
    a = b := by
  have ha := natFromCharsAux_natToChars a
  rw [h, natFromCharsAux_natToChars] at ha
  exact ha.symm

theorem append_sep_inj : ∀ (a b r s : List Char),
    (∀ c ∈ a, isDigitChar c = true) → (∀ c ∈ b, isDigitChar c = true) →
    a ++ '-' :: r = b ++ '-' :: s → a = b ∧ r = s := by
  intro a
  induction a with
  | nil =>
    intro b r s _ hb h
    cases b with
    | nil => simpa using h
    | cons y ys =>
      exfalso
      simp only [List.nil_append, List.cons_append, List.cons.injEq] at h
      have hy : isDigitChar y = true := hb y (by simp)
      rw [← h.1] at hy
      exact absurd hy (by decide)
  | cons x xs ih =>
    intro b r s ha hb h
    cases b with
    | nil =>
      exfalso
      simp only [List.nil_append, List.cons_append, List.cons.injEq] at h
      have hx : isDigitChar x = true := ha x (by simp)
      rw [h.1] at hx
      exact absurd hx (by decide)
    | cons y ys =>
      simp only [List.cons_append, List.cons.injEq] at h
      obtain ⟨hxy, htail⟩ := h
      obtain ⟨h1, h2⟩ := ih ys r s (fun c hc => ha c (by simp [hc]))
        (fun c hc => hb c (by simp [hc])) htail
      exact ⟨by rw [hxy, h1], h2⟩

theorem generateMessageId_ne (t1 t2 c1 c2 : Nat) (r1 r2 : List Char)
    (hc : c1 ≠ c2) (h1 : '-' ∉ r1) (h2 : '-' ∉ r2) :
    generateMessageId t1 c1 r1 ≠ generateMessageId t2 c2 r2 := by
  intro heq
  rw [generateMessageId, generateMessageId] at heq
  simp only [List.append_assoc, List.cons_append, List.nil_append,
    List.cons.injEq, true_and] at heq
  obtain ⟨-, htail⟩ := append_sep_inj _ _ _ _ (natToChars_digits t1)
    (natToChars_digits t2) heq
  obtain ⟨hcc, -⟩ := append_sep_inj _ _ _ _ (natToChars_digits c1)
    (natToChars_digits c2) htail
  exact hc (natToChars_injective hcc)

/-- C8: in a run of `generateMessageId` calls within one process lifetime,
any two distinct calls yield different id strings — even with identical
timestamps (same millisecond) and identical random suffixes — because the
post-increment `msgCounter` component differs and the dash-separated layout
recovers it unambiguously (timestamp and counter are digit strings and the
random suffix contains no dash). -/
theorem generatedIds_distinct (c0 : Nat) (calls : List (Nat × List Char))
    (hr : ∀ p ∈ calls, '-' ∉ p.2)
    (i j : Nat) (hi : i < (generatedIds c0 calls).length)
    (hj : j < (generatedIds c0 calls).length) (hij : i ≠ j) :
    (generatedIds c0 calls).get ⟨i, hi⟩ ≠ (generatedIds c0 calls).get ⟨j, hj⟩ := by
  have hlen : (generatedIds c0 calls).length = calls.length := by
    simp [generatedIds]
  have hi' : i < calls.length := hlen ▸ hi
  have hj' : j < calls.length := hlen ▸ hj
  have hgi : ∀ (m : Nat) (hm : m < (generatedIds c0 calls).length)
      (hm' : m < calls.length),
      (generatedIds c0 calls).get ⟨m, hm⟩
        = generateMessageId (calls.get ⟨m, hm'⟩).1 (c0 + m + 1)
            (calls.get ⟨m, hm'⟩).2 := by
    intro m hm hm'
    simp [generatedIds, List.get_eq_getElem]
  rw [hgi i hi hi', hgi j hj hj']
  exact generateMessageId_ne _ _ _ _ _ _ (by omega)
    (hr _ (List.get_mem calls i hi'))
    (hr _ (List.get_mem calls j hj'))

/-- C8 witnessed: two calls in the same millisecond with the same random
suffix still produce different ids. -/
theorem generatedIds_distinct_witness :
    (generatedIds 0 [(100, ("abc".toList)), (100, ("abc".toList))]).get
        ⟨0, by decide⟩
      ≠ (generatedIds 0 [(100, ("abc".toList)), (100, ("abc".toList))]).get
        ⟨1, by decide⟩ :=
  generatedIds_distinct 0 _ (by decide) 0 1 (by decide) (by decide) (by decide)

/-! ### Claim C9: username normalization shared by signup and login -/

theorem mem_of_getLast?_eq {α : Type} :
    ∀ {l : List α} {a : α}, l.getLast? = some a → a ∈ l := by
  intro l
  induction l with
  | nil => intro a h; cases h
  | cons x xs ih =>
    intro a h
    cases xs with
    | nil =>
      simp only [List.getLast?_singleton, Option.some.injEq] at h
      simp [h]
    | cons y ys =>
      rw [List.getLast?_cons_cons] at h
      exact List.mem_cons_of_mem _ (ih h)

theorem getLast?_of_all_eq {α : Type} {l : List α} {a : α} (hne : l ≠ [])
    (hall : ∀ x ∈ l, x = a) : l.getLast? = some a := by
  cases hq : l.getLast? with
  | none => exact absurd (List.getLast?_eq_none_iff.mp hq) hne
  | some x => rw [hall x (mem_of_getLast?_eq hq)]

theorem usersLookup_insert (users : UsersMap) (k : List Char) (v : Credential) :
    usersLookup (usersInsert users k v) k = some v := by
  rw [usersInsert]
  by_cases h : (usersLookup users k).isSome
  · rw [if_pos h]
    have hne : users.filter (fun e => e.1 = k) ≠ [] := by
      intro hnil
      rw [usersLookup, hnil] at h
      simp at h
    obtain ⟨e0, he0⟩ := List.exists_mem_of_ne_nil _ hne
    have he0' := List.mem_filter.mp he0
    have hk0 : e0.1 = k := by simpa using he0'.2
    have hmem : (k, v) ∈ (users.map fun e =>
        if e.1 = k then (k, v) else e).filter (fun e => e.1 = k) := by
      refine List.mem_filter.mpr ⟨?_, by simp⟩
      refine List.mem_map.mpr ⟨e0, he0'.1, ?_⟩
      rw [if_pos hk0]
    have hall : ∀ x ∈ (users.map fun e =>
        if e.1 = k then (k, v) else e).filter (fun e => e.1 = k), x = (k, v) := by
      intro x hx
      obtain ⟨hx1, hx2⟩ := List.mem_filter.mp hx
      obtain ⟨e, -, rfl⟩ := List.mem_map.mp hx1
      by_cases he : e.1 = k
      · rw [if_pos he]
      · rw [if_neg he] at hx2 ⊢
        exact absurd (by simpa using hx2) he
    rw [usersLookup, getLast?_of_all_eq (by intro hnil; rw [hnil] at hmem; cases hmem) hall]
    rfl
  · rw [if_neg h, usersLookup, List.filter_append]
    simp [List.filter_singleton, List.getLast?_concat]

theorem signup_success_state {st st' : AuthState} {u p newId : List Char}
    (hs : signup st u p newId = (.success, st')) :
    st' = { users := usersInsert st.users (normalizeUsername u) ⟨p, newId⟩,
            currentUser := some ⟨newId, normalizeUsername u⟩ }
    ∧ ¬(normalizeUsername u = [] ∨ p = []) := by
  rw [signup] at hs
  split_ifs at hs with h1 h2 h3 h4
  · exact absurd (congrArg Prod.fst hs) (by simp)
  · exact absurd (congrArg Prod.fst hs) (by simp)
  · exact absurd (congrArg Prod.fst hs) (by simp)
  · exact absurd (congrArg Prod.fst hs) (by simp)
  · exact ⟨(congrArg Prod.snd hs).symm, h1⟩

/-- C9: `signup` and `login` normalize the username identically
(`trim().toLowerCase()`): after a successful `signup(u, p)` minting user id
`newId`, a `login(u', p)` for any `u'` with the same normalization succeeds,
and the logged-in user's id is exactly `newId`. -/
theorem login_after_signup (st st' : AuthState) (u u' p newId : List Char)
    (hnorm : normalizeUsername u' = normalizeUsername u)
    (hs : signup st u p newId = (.success, st')) :
    (login st' u' p).1 = .success
    ∧ (login st' u' p).2.currentUser = some ⟨newId, normalizeUsername u⟩ := by
  obtain ⟨hst, hcond⟩ := signup_success_state hs
  subst hst
  rw [login]
  simp only [hnorm]
  rw [if_neg hcond]
  rw [show usersLookup (usersInsert st.users (normalizeUsername u) ⟨p, newId⟩)
      (normalizeUsername u) = some ⟨p, newId⟩ from usersLookup_insert _ _ _]
  simp

/-- C9 witnessed: `signup("Alice", "pass1")` then `login("  alice ",
"pass1")` succeeds with the same user id. -/
theorem login_after_signup_witness :
    (login { users := [(("alice".toList), ⟨("pass1".toList), ("id1".toList)⟩)],
             currentUser := some ⟨("id1".toList), ("alice".toList)⟩ }
        ("  alice ".toList) ("pass1".toList)).1 = .success
    ∧ (login { users := [(("alice".toList), ⟨("pass1".toList), ("id1".toList)⟩)],
               currentUser := some ⟨("id1".toList), ("alice".toList)⟩ }
        ("  alice ".toList) ("pass1".toList)).2.currentUser
      = some ⟨("id1".toList), normalizeUsername ("Alice".toList)⟩ :=
  login_after_signup ⟨[], none⟩ _ ("Alice".toList) ("  alice ".toList)
    ("pass1".toList) ("id1".toList) (by decide) (by rfl)

/-! ### Claim C10: `updateLastMessage` semantics -/

theorem setLastContent_concat (msgs : List Message) (m : Message)
    (content : List Char) :
    setLastContent (msgs ++ [m]) content
      = msgs ++ [{ m with content := content }] := by
  rw [setLastContent, List.getLast?_concat]
  simp [List.dropLast_concat]

theorem updateLastMessageList_untouched (l : List Conversation)
    (cid content : List Char) (now : Nat)
    (h : ∀ c ∈ l, c.id ≠ cid ∨ c.messages = []) :
    updateLastMessageList l cid content now = l := by
  rw [updateLastMessageList]
  induction l with
  | nil => rfl
  | cons c cs ih =>
    have hc : ¬(c.id = cid ∧ c.messages ≠ []) := by
      rcases h c (by simp) with h' | h'
      · exact fun hco => h' hco.1
      · exact fun hco => hco.2 h'
    simp only [List.map_cons, if_neg hc]
    rw [ih (fun x hx => h x (by simp [hx]))]

/-- C10: `updateLastMessage` leaves the whole conversation set unchanged
when no conversation has the given id or the target's message list is
empty; otherwise it acts pointwise — conversations with a different id (or
no messages) are untouched, and the target conversation keeps its id,
title and `createdAt`, gets `updatedAt := now`, keeps every message but the
last unchanged, and the last message keeps its id, role, timestamp and
image, with only `content` replaced. -/
theorem updateLastMessage_pointwise (st : StoreState) (cid content : List Char)
    (now : Nat) :
    ((∀ c ∈ st.conversations, c.id ≠ cid ∨ c.messages = []) →
      updateLastMessage st cid content now = st)
    ∧ (updateLastMessage st cid content now).conversations.length
        = st.conversations.length
    ∧ ∀ i (hi : i < st.conversations.length)
        (hi' : i < (updateLastMessage st cid content now).conversations.length),
        (((st.conversations.get ⟨i, hi⟩).id ≠ cid
            ∨ (st.conversations.get ⟨i, hi⟩).messages = []) →
          (updateLastMessage st cid content now).conversations.get ⟨i, hi'⟩
            = st.conversations.get ⟨i, hi⟩)
        ∧ ((st.conversations.get ⟨i, hi⟩).id = cid →
            ∀ msgs m, (st.conversations.get ⟨i, hi⟩).messages = msgs ++ [m] →
            (updateLastMessage st cid content now).conversations.get ⟨i, hi'⟩
              = { st.conversations.get ⟨i, hi⟩ with
                  messages := msgs ++ [{ m with content := content }],
                  updatedAt := now }) := by
  refine ⟨?_, by simp [updateLastMessage, updateLastMessageList], ?_⟩
  · intro h
    rw [updateLastMessage,
      updateLastMessageList_untouched st.conversations cid content now h]
  · intro i hi hi'
    have hget : (updateLastMessage st cid content now).conversations.get ⟨i, hi'⟩
        = if (st.conversations.get ⟨i, hi⟩).id = cid
              ∧ (st.conversations.get ⟨i, hi⟩).messages ≠ [] then
            { st.conversations.get ⟨i, hi⟩ with
              messages := setLastContent
                (st.conversations.get ⟨i, hi⟩).messages content,
              updatedAt := now }
          else st.conversations.get ⟨i, hi⟩ := by
      simp [updateLastMessage, updateLastMessageList, List.get_eq_getElem]
    constructor
    · intro h
      rw [hget, if_neg]
      rcases h with h' | h'
      · exact fun hco => h' hco.1
      · exact fun hco => hco.2 h'
    · intro hid msgs m hmsgs
      rw [hget, if_pos ⟨hid, by rw [hmsgs]; simp⟩, hmsgs, setLastContent_concat]

def c10Msg1 : Message := ⟨("m1".toList), .user, ("q".toList), 10, none⟩

def c10Msg2 : Message := ⟨("m2".toList), .assistant, ("old".toList), 11, none⟩

def c10State : StoreState :=
  ⟨[⟨("c1".toList), ("T1".toList), [c10Msg1, c10Msg2], 1, 2⟩,
    ⟨("c2".toList), ("T2".toList), [c10Msg1], 3, 4⟩],
   none, false, fun _ => none⟩

/-- C10 witnessed: updating `c1` replaces only the last message's content
(id, role, timestamp kept), refreshes `updatedAt`, and leaves `c2`
untouched; updating an unknown id is a no-op. -/
theorem updateLastMessage_pointwise_witness :
    (updateLastMessage c10State ("zz".toList) ("new".toList) 99) = c10State
    ∧ (updateLastMessage c10State ("c1".toList) ("new".toList) 99).conversations.get
        ⟨0, by decide⟩
      = ⟨("c1".toList), ("T1".toList),
          [c10Msg1, { c10Msg2 with content := ("new".toList) }], 1, 99⟩
    ∧ (updateLastMessage c10State ("c1".toList) ("new".toList) 99).conversations.get
        ⟨1, by decide⟩
      = ⟨("c2".toList), ("T2".toList), [c10Msg1], 3, 4⟩ := by
  refine ⟨?_, ?_, ?_⟩
  · exact (updateLastMessage_pointwise c10State ("zz".toList) ("new".toList) 99).1
      (by decide)
  · exact ((updateLastMessage_pointwise c10State ("c1".toList) ("new".toList) 99).2.2
      0 (by decide) (by decide)).2 (by decide) [c10Msg1] c10Msg2 (by decide)
  · exact ((updateLastMessage_pointwise c10State ("c1".toList) ("new".toList) 99).2.2
      1 (by decide) (by decide)).1 (by decide)
